import Mathlib

/-! The package `decowriter`: a line-decorating writer.

Shallow embedding of `writer.go` (package `decowriter`).

* The underlying `io.Writer` is an arbitrary state machine (`Sink`): a `Write`
  method returning the accepted count and an optional error, and an optional
  `Flush` method.  Its mutable state lives in a `World`, next to a ghost trace
  of the sink calls performed so far.
* `Writer` carries the fields of the Go struct; `Writer.Write` follows the Go
  method statement by statement: the `for len(p) > 0` loop is `Writer.loop`,
  the deferred function is applied to whatever the loop returns.
* `Writer.loop` and `Writer.Write` keep the Go counters (`n`, an `int`, and
  `written`, an `int64`) as unbounded integers; `Writer.loop64` and
  `Writer.Write64` are the same code with Go's wrap-around arithmetic, and
  `Writer.Write64_wrapped` shows that they return what the former return,
  counters wrapped: the two agree as long as the counts stay within `int64`.
* `bytes.IndexByte` returns `Option Nat`, `none` standing for `-1`; the slices
  `p[:i]` and `p[i+1:]` are `p.take i` and `p.drop (i + 1)`.
* An `error` value is `Option ε`, `none` being `nil`.
* `Writer.kinds` is a second ghost: it follows the loop and records which of
  its three `w.w.Write` calls each sink write is (prefix, payload, suffix).
-/

namespace Decowriter

/-- A Go `[]byte`. -/
abbrev Bytes := List UInt8

/-- The line terminator `'\n'`. -/
def nl : UInt8 := 10

/-- The call `bytes.IndexByte(p, c)`: offset of the first `c` in `p`; `none` stands for `-1`. -/
def indexByte : Bytes → UInt8 → Option Nat
  | [], _ => none
  | b :: bs, c =>
    if b = c then some 0
    else match indexByte bs c with
      | none => none
      | some i => some (i + 1)

/-- An `io.Writer`, possibly also a `flusher`: `Write` returns `((n, err), newState)`,
`Flush` is `none` when the sink has no `Flush() error` method. -/
structure Sink (σ ε : Type) where
  Write : σ → Bytes → (Int × Option ε) × σ
  Flush : Option (σ → Option ε × σ)

/-- One call made on the sink, with what it returned. -/
inductive Event (ε : Type) where
  | write (chunk : Bytes) (nn : Int) (err : Option ε)
  | flush (err : Option ε)
  deriving DecidableEq, Repr

/-- The sink's state together with the ghost trace of the calls made on it. -/
structure World (σ ε : Type) where
  sink : σ
  trace : List (Event ε)

/-- What a call `w.w.Write(chunk)` returns. -/
structure WriteRet (σ ε : Type) where
  nn : Int
  err : Option ε
  world : World σ ε

/-- The call `w.Write(chunk)` on the sink `S`, recorded in the trace. -/
def sinkWrite {σ ε : Type} (S : Sink σ ε) (world : World σ ε) (chunk : Bytes) : WriteRet σ ε :=
  let r := S.Write world.sink chunk
  { nn := r.1.1, err := r.1.2,
    world := { sink := r.2, trace := world.trace ++ [Event.write chunk r.1.1 r.1.2] } }

/-- The function `nop`. -/
def nop {σ ε : Type} (world : World σ ε) : Option ε × World σ ε := (none, world)

/-- The function `getFlush`: the sink's `Flush` when it is a `flusher`, else `nop`. -/
def getFlush {σ ε : Type} (S : Sink σ ε) : World σ ε → Option ε × World σ ε :=
  match S.Flush with
  | some f => fun world =>
      let r := f world.sink
      (r.1, { sink := r.2, trace := world.trace ++ [Event.flush r.1] })
  | none => nop

/-- The struct `Writer`; `pfx` and `sfx` are its fields `prefix` and `suffix`. -/
structure Writer (σ ε : Type) where
  w : Sink σ ε
  flush : World σ ε → Option ε × World σ ε
  pfx : Bytes
  sfx : Bytes
  head : Bool
  written : Int

/-- The constructor `New`. -/
def New {σ ε : Type} (w : Sink σ ε) (pfx sfx : Bytes) : Writer σ ε :=
  { w := w, flush := getFlush w, pfx := pfx, sfx := sfx ++ [nl], head := true, written := 0 }

/-- The method `Written`. -/
def Writer.Written {σ ε : Type} (w : Writer σ ε) : Int := w.written

/-- The results `(n, err)` of `Write` with the receiver and the world after the call. -/
structure Result (σ ε : Type) where
  n : Int
  err : Option ε
  writer : Writer σ ε
  world : World σ ε

/-- The loop `for len(p) > 0 { ... }` of `Write` followed by `return n, nil`, entered with
the count `n`.  Every iteration that goes round again shortens `p`, so `fuel = len(p)`
iterations are enough (`Writer.loop_fuel`). -/
def Writer.loop {σ ε : Type} :
    Nat → Writer σ ε → World σ ε → Bytes → Int → Result σ ε
  | 0, w, world, _, n => ⟨n, none, w, world⟩
  | fuel + 1, w, world, p, n =>
    if p.length > 0 then
      -- if w.head { ... }
      let r0 : WriteRet σ ε :=
        if w.head then sinkWrite w.w world w.pfx else ⟨0, none, world⟩
      let w0 : Writer σ ε :=
        if w.head then { w with written := w.written + r0.nn } else w
      match r0.err with
      | some e => ⟨n, some e, w0, r0.world⟩
      | none =>
        let w1 : Writer σ ε := if w.head then { w0 with head := false } else w0
        match indexByte p nl with
        | none =>
          let r := sinkWrite w1.w r0.world p
          ⟨n + r.nn, r.err, { w1 with written := w1.written + r.nn }, r.world⟩
        | some i =>
          let r := sinkWrite w1.w r0.world (p.take i)
          let n1 := n + r.nn
          let w2 : Writer σ ε := { w1 with written := w1.written + r.nn }
          match r.err with
          | some e => ⟨n1, some e, w2, r.world⟩
          | none =>
            let r2 := sinkWrite w2.w r.world w2.sfx
            let n2 := n1 + 1
            let w3 : Writer σ ε := { w2 with written := w2.written + r2.nn }
            match r2.err with
            | some e => ⟨n2, some e, w3, r2.world⟩
            | none => Writer.loop fuel { w3 with head := true } r2.world (p.drop (i + 1)) n2
    else ⟨n, none, w, world⟩

/-- The method `Write`. -/
def Writer.Write {σ ε : Type} (w : Writer σ ε) (world : World σ ε) (p : Bytes) : Result σ ε :=
  if p.length = 0 then ⟨0, none, w, world⟩
  else
    let r := w.loop p.length world p 0
    -- the deferred function
    match r.err with
    | none =>
      let f := r.writer.flush r.world
      { r with err := f.1, world := f.2 }
    | some _ => r

/-- The method `Flush`. -/
def Writer.Flush {σ ε : Type} (w : Writer σ ε) (world : World σ ε) : Option ε × World σ ε :=
  w.flush world

/-- A caller issuing the calls `w.Write(p)` for each `p` of a list in turn, whatever each
call returns: the returned `(n, err)` pairs, the receiver and the world at the end. -/
def Writer.WriteSeq {σ ε : Type} (w : Writer σ ε) (world : World σ ε) :
    List Bytes → List (Int × Option ε) × Writer σ ε × World σ ε
  | [] => ([], w, world)
  | p :: ps =>
    let r := w.Write world p
    let rest := Writer.WriteSeq r.writer r.world ps
    ((r.n, r.err) :: rest.1, rest.2)

/-! ## Observations on the trace -/

/-- The bytes the sink has received: the accepted part of the chunk of every write call. -/
def received {ε : Type} : List (Event ε) → Bytes
  | [] => []
  | Event.write chunk nn _ :: es => chunk.take nn.toNat ++ received es
  | Event.flush _ :: es => received es

/-- The chunks handed to the sink's `Write`, in order. -/
def chunks {ε : Type} : List (Event ε) → List Bytes
  | [] => []
  | Event.write chunk _ _ :: es => chunk :: chunks es
  | Event.flush _ :: es => chunks es

/-- The number of calls of the sink's `Flush`. -/
def flushCount {ε : Type} : List (Event ε) → Nat
  | [] => 0
  | Event.write _ _ _ :: es => flushCount es
  | Event.flush _ :: es => flushCount es + 1

/-- The error of the first write call that returned one, if any. -/
def writeError {ε : Type} : List (Event ε) → Option ε
  | [] => none
  | Event.write _ _ (some e) :: _ => some e
  | Event.write _ _ none :: es => writeError es
  | Event.flush _ :: es => writeError es

/-- The sink calls made by the call `w.Write(p)` itself. -/
def Writer.callEvents {σ ε : Type} (w : Writer σ ε) (world : World σ ε) (p : Bytes) :
    List (Event ε) :=
  (w.Write world p).world.trace.drop world.trace.length

/-- A sink that accepts every write in full: `Write(c)` returns `(len(c), nil)`. -/
def AcceptsAll {σ ε : Type} (S : Sink σ ε) : Prop :=
  ∀ (s : σ) (c : Bytes), (S.Write s c).1 = ((c.length : Int), none)

/-- A sink whose every write, from the states satisfying `Inv` on, returns a count between
0 and the length of its chunk (and stays in those states). -/
def CountsInRange {σ ε : Type} (S : Sink σ ε) (Inv : σ → Prop) : Prop :=
  ∀ (s : σ) (c : Bytes), Inv s →
    Inv (S.Write s c).2 ∧ 0 ≤ (S.Write s c).1.1 ∧ (S.Write s c).1.1 ≤ (c.length : Int)

/-- The first payload chunk of `p`: the bytes before its first `'\n'`, or all of `p`. -/
def firstPayload (p : Bytes) : Bytes :=
  match indexByte p nl with
  | none => p
  | some i => p.take i

/-! ## The decorated output, as the specification words it -/

/-- The `'\n'`-terminated lines of `p` (terminators removed), in order, and the part of `p`
after its last `'\n'`. -/
def splitLines : Bytes → List Bytes × Bytes
  | [] => ([], [])
  | b :: bs =>
    let r := splitLines bs
    if b = nl then ([] :: r.1, r.2)
    else match r.1 with
      | [] => ([], b :: r.2)
      | l :: ls => ((b :: l) :: ls, r.2)

/-- The specification's `decorate(p)`: every terminated line `L` becomes
`prefix ++ L ++ suffix ++ "\n"`, and a non-empty unterminated rest `R` becomes `prefix ++ R`. -/
def decorate (pfx suffix p : Bytes) : Bytes :=
  ((splitLines p).1.map (fun L => pfx ++ L ++ suffix ++ [nl])).flatten ++
    (if (splitLines p).2 = [] then [] else pfx ++ (splitLines p).2)

/-- Byte-by-byte reading of the writer for a sink accepting everything: the output for `p`
when started with `head = h`; `sfx` is the stored suffix, terminator included. -/
def emit (pfx sfx : Bytes) : Bool → Bytes → Bytes
  | _, [] => []
  | h, b :: bs =>
    (if h then pfx else []) ++ (if b = nl then sfx ++ emit pfx sfx true bs
      else b :: emit pfx sfx false bs)

/-- The value of `head` after all of `p` went through, when started with `head = h`. -/
def headAfter : Bool → Bytes → Bool
  | h, [] => h
  | _, b :: bs => headAfter (decide (b = nl)) bs

/-! ## Sinks of the test suite -/

/-- The sink `limitWriter` of `writer_test.go`; its state is the field `limit`. -/
def limitWriter : Sink Int String where
  Write := fun limit p =>
    let x : Int := p.length
    if limit < x then ((limit, some "limitWriter"), 0) else ((x, none), limit - x)
  Flush := none

/-- The sink `writerFlush` of `writer_test.go`; its state is the field `flush`. -/
def writerFlush : Sink Nat String where
  Write := fun s p => ((p.length, none), s)
  Flush := some (fun s => (none, s + 1))

/-- A sink that accepts every write in full and whose `Flush` always fails. -/
def flushFails : Sink Unit String where
  Write := fun s p => ((p.length, none), s)
  Flush := some (fun s => (some "flush", s))

/-! ## Ghost classification of the sink writes -/

/-- Which of the three `w.w.Write` calls of the loop a sink write is: the one of the prefix,
the one of a payload chunk (`p` or `p[:i]`), the one of the suffix with its terminator. -/
inductive Kind where
  | pre
  | payload
  | suf
  deriving DecidableEq, Repr

/-- The kinds of the successive sink writes made by `Writer.loop`, in order: the same
control flow and the same state as the loop, recording at each `w.w.Write` which one it is. -/
def Writer.kinds {σ ε : Type} : Nat → Writer σ ε → World σ ε → Bytes → List Kind
  | 0, _, _, _ => []
  | fuel + 1, w, world, p =>
    if p.length > 0 then
      let r0 : WriteRet σ ε :=
        if w.head then sinkWrite w.w world w.pfx else ⟨0, none, world⟩
      let k0 : List Kind := if w.head then [Kind.pre] else []
      let w0 : Writer σ ε :=
        if w.head then { w with written := w.written + r0.nn } else w
      match r0.err with
      | some _ => k0
      | none =>
        let w1 : Writer σ ε := if w.head then { w0 with head := false } else w0
        match indexByte p nl with
        | none => k0 ++ [Kind.payload]
        | some i =>
          let r := sinkWrite w1.w r0.world (p.take i)
          let w2 : Writer σ ε := { w1 with written := w1.written + r.nn }
          match r.err with
          | some _ => k0 ++ [Kind.payload]
          | none =>
            let r2 := sinkWrite w2.w r.world w2.sfx
            let w3 : Writer σ ε := { w2 with written := w2.written + r2.nn }
            match r2.err with
            | some _ => k0 ++ [Kind.payload, Kind.suf]
            | none =>
              k0 ++ [Kind.payload, Kind.suf] ++
                Writer.kinds fuel { w3 with head := true } r2.world (p.drop (i + 1))
    else []

/-- The chunk a sink write of a given kind is handed: the stored prefix, the stored suffix,
or a piece of the input without terminator. -/
def Kind.fits (pfx sfx : Bytes) : Kind → Bytes → Prop
  | Kind.pre, c => c = pfx
  | Kind.suf, c => c = sfx
  | Kind.payload, c => nl ∉ c

/-- The kinds of the sink writes made by the call `w.Write(p)`. -/
def Writer.WriteKinds {σ ε : Type} (w : Writer σ ε) (world : World σ ε) (p : Bytes) :
    List Kind :=
  w.kinds p.length world p

/-- The kinds of the sink writes made by the calls of `Writer.WriteSeq`. -/
def Writer.WriteSeqKinds {σ ε : Type} (w : Writer σ ε) (world : World σ ε) :
    List Bytes → List Kind
  | [] => []
  | p :: ps =>
    w.WriteKinds world p ++
      Writer.WriteSeqKinds (w.Write world p).writer (w.Write world p).world ps

/-- The error returned by each write call of a trace, in order. -/
def writeErrs {ε : Type} : List (Event ε) → List (Option ε)
  | [] => []
  | Event.write _ _ err :: es => err :: writeErrs es
  | Event.flush _ :: es => writeErrs es

/-- The sum of the accepted counts returned by the write calls of a trace. -/
def accepted {ε : Type} : List (Event ε) → Int
  | [] => 0
  | Event.write _ nn _ :: es => nn + accepted es
  | Event.flush _ :: es => accepted es

/-- Reading of a history of sink writes (kind and returned error): starting from `h`, a
prefix write that returned `nil` opens a line (`false`), a suffix write that returned `nil`
closes it (`true`), every other write changes nothing. -/
def lineStart {ε : Type} : Bool → List (Kind × Option ε) → Bool
  | h, [] => h
  | _, (Kind.pre, none) :: es => lineStart false es
  | _, (Kind.suf, none) :: es => lineStart true es
  | h, _ :: es => lineStart h es

/-! ## Callers -/

/-- One call of a method of the Writer. -/
inductive Call where
  | Write (p : Bytes)
  | Flush
  | Written

/-- The receiver and the world after one call. -/
def Writer.call {σ ε : Type} (w : Writer σ ε) (world : World σ ε) :
    Call → Writer σ ε × World σ ε
  | Call.Write p => ((w.Write world p).writer, (w.Write world p).world)
  | Call.Flush => (w, (w.Flush world).2)
  | Call.Written => (w, world)

/-- The receiver and the world after a sequence of calls. -/
def Writer.calls {σ ε : Type} (w : Writer σ ε) (world : World σ ε) :
    List Call → Writer σ ε × World σ ε
  | [] => (w, world)
  | c :: cs => Writer.calls (w.call world c).1 (w.call world c).2 cs

/-! ## More sinks -/

/-- A sink that, from the states satisfying `Inv` on, accepts every write in full. -/
def AcceptsAllFrom {σ ε : Type} (S : Sink σ ε) (Inv : σ → Prop) : Prop :=
  ∀ (s : σ) (c : Bytes), Inv s →
    Inv (S.Write s c).2 ∧ (S.Write s c).1 = ((c.length : Int), none)

/-- The contract of `io.Writer` on the count: `0 <= n <= len(p)`, and a non-nil error
whenever `n < len(p)`. -/
def Contract {σ ε : Type} (S : Sink σ ε) : Prop :=
  ∀ (s : σ) (c : Bytes), 0 ≤ (S.Write s c).1.1 ∧ (S.Write s c).1.1 ≤ (c.length : Int) ∧
    ((S.Write s c).1.2 = none → (S.Write s c).1.1 = (c.length : Int))

/-- A `limitWriter` that recovers: with `some limit` it accepts `limit` more bytes, the
write that exceeds the limit accepts what is left of it, returns an error, and from then on
(`none`) every write is accepted in full; `Flush` returns `flushErr`. -/
def recovering (flushErr : Option String) : Sink (Option Nat) String where
  Write := fun s p =>
    match s with
    | none => ((p.length, none), none)
    | some limit =>
      if limit < p.length then ((limit, some "limit"), none)
      else ((p.length, none), some (limit - p.length))
  Flush := some (fun s => (flushErr, s))

/-! ## The counters as Go computes them -/

/-- Go's arithmetic on a signed 64-bit integer (`int64`, and `int` on a 64-bit platform):
the result wraps around, two's complement. -/
def wrap64 (x : Int) : Int :=
  (x + 9223372036854775808) % 18446744073709551616 - 9223372036854775808

/-- The loop of `Write` with the counters `n` (an `int`, taken as 64 bits) and `written` (an
`int64`) computed as Go does, with wrap-around; apart from that it is `Writer.loop`, line
by line. -/
def Writer.loop64 {σ ε : Type} :
    Nat → Writer σ ε → World σ ε → Bytes → Int → Result σ ε
  | 0, w, world, _, n => ⟨n, none, w, world⟩
  | fuel + 1, w, world, p, n =>
    if p.length > 0 then
      let r0 : WriteRet σ ε :=
        if w.head then sinkWrite w.w world w.pfx else ⟨0, none, world⟩
      let w0 : Writer σ ε :=
        if w.head then { w with written := wrap64 (w.written + r0.nn) } else w
      match r0.err with
      | some e => ⟨n, some e, w0, r0.world⟩
      | none =>
        let w1 : Writer σ ε := if w.head then { w0 with head := false } else w0
        match indexByte p nl with
        | none =>
          let r := sinkWrite w1.w r0.world p
          ⟨wrap64 (n + r.nn), r.err, { w1 with written := wrap64 (w1.written + r.nn) }, r.world⟩
        | some i =>
          let r := sinkWrite w1.w r0.world (p.take i)
          let n1 := wrap64 (n + r.nn)
          let w2 : Writer σ ε := { w1 with written := wrap64 (w1.written + r.nn) }
          match r.err with
          | some e => ⟨n1, some e, w2, r.world⟩
          | none =>
            let r2 := sinkWrite w2.w r.world w2.sfx
            let n2 := wrap64 (n1 + 1)
            let w3 : Writer σ ε := { w2 with written := wrap64 (w2.written + r2.nn) }
            match r2.err with
            | some e => ⟨n2, some e, w3, r2.world⟩
            | none => Writer.loop64 fuel { w3 with head := true } r2.world (p.drop (i + 1)) n2
    else ⟨n, none, w, world⟩

/-- The method `Write` with the counters computed as Go does. -/
def Writer.Write64 {σ ε : Type} (w : Writer σ ε) (world : World σ ε) (p : Bytes) :
    Result σ ε :=
  if p.length = 0 then ⟨0, none, w, world⟩
  else
    let r := w.loop64 p.length world p 0
    match r.err with
    | none =>
      let f := r.writer.flush r.world
      { r with err := f.1, world := f.2 }
    | some _ => r

/-- The sink calls made by the call `w.Write(p)`, counters computed as Go does. -/
def Writer.callEvents64 {σ ε : Type} (w : Writer σ ε) (world : World σ ε) (p : Bytes) :
    List (Event ε) :=
  (w.Write64 world p).world.trace.drop world.trace.length

/-- The receiver and the world after one call, counters computed as Go does. -/
def Writer.call64 {σ ε : Type} (w : Writer σ ε) (world : World σ ε) :
    Call → Writer σ ε × World σ ε
  | Call.Write p => ((w.Write64 world p).writer, (w.Write64 world p).world)
  | Call.Flush => (w, (w.Flush world).2)
  | Call.Written => (w, world)

/-- The receiver and the world after a sequence of calls, counters computed as Go does. -/
def Writer.calls64 {σ ε : Type} (w : Writer σ ε) (world : World σ ε) :
    List Call → Writer σ ε × World σ ε
  | [] => (w, world)
  | c :: cs => Writer.calls64 (w.call64 world c).1 (w.call64 world c).2 cs

/-- A Writer with its unbounded count of written bytes brought into `int64`. -/
def Writer.wrapped {σ ε : Type} (w : Writer σ ε) : Writer σ ε :=
  { w with written := wrap64 w.written }

/-- A result with its unbounded counters brought into `int` and `int64`. -/
def Result.wrapped {σ ε : Type} (r : Result σ ε) : Result σ ε :=
  ⟨wrap64 r.n, r.err, r.writer.wrapped, r.world⟩

/-- A write call that was accepted in full without error (a flush call counts as such). -/
def Event.full {ε : Type} : Event ε → Bool
  | Event.write c nn err => decide (nn = (c.length : Int)) && err.isNone
  | Event.flush _ => true

/-- A sink that claims `math.MaxInt64` accepted bytes at every write. -/
def greedy : Sink Unit String where
  Write := fun s _ => ((9223372036854775807, none), s)
  Flush := none

/-! # Theorems -/

variable {σ ε : Type}

/-- Fuel: any two amounts of fuel that are at least `len(p)` give the same run of the loop,
so the loop of `Write`, run with `len(p)`, never stops for lack of fuel. -/
theorem Writer.loop_fuel (f1 f2 : Nat) (w : Writer σ ε) (world : World σ ε) (p : Bytes) (n : Int)
    (h1 : p.length ≤ f1) (h2 : p.length ≤ f2) :
    w.loop f1 world p n = w.loop f2 world p n := by
  induction f1 generalizing f2 w world p n with
  | zero =>
    have hp : p = [] := List.length_eq_zero.mp (by omega)
    subst hp
    cases f2 <;> simp [Writer.loop]
  | succ f1 ih =>
    cases f2 with
    | zero =>
      have hp : p = [] := List.length_eq_zero.mp (by omega)
      subst hp
      simp [Writer.loop]
    | succ f2 =>
      simp only [Writer.loop]
      split
      · rename_i hlen
        split
        · rfl
        · split
          · rfl
          · split
            · rfl
            · split
              · rfl
              · apply ih
                · rw [List.length_drop]; omega
                · rw [List.length_drop]; omega
      · rfl

/-! ## `bytes.IndexByte` -/

theorem indexByte_none {p : Bytes} {c : UInt8} (h : indexByte p c = none) : c ∉ p := by
  induction p with
  | nil => simp
  | cons b bs ih =>
    simp only [indexByte] at h
    split at h
    · simp at h
    · rename_i hb
      split at h
      · rename_i hn
        simp only [List.mem_cons, not_or]
        exact ⟨fun hc => hb hc.symm, ih hn⟩
      · simp at h

theorem indexByte_some {p : Bytes} {c : UInt8} {i : Nat} (h : indexByte p c = some i) :
    i < p.length ∧ p.drop i = c :: p.drop (i + 1) ∧ c ∉ p.take i := by
  induction p generalizing i with
  | nil => simp [indexByte] at h
  | cons b bs ih =>
    simp only [indexByte] at h
    split at h
    · rename_i hb
      simp only [Option.some.injEq] at h
      subst h; subst hb
      simp
    · rename_i hb
      split at h
      · simp at h
      · rename_i j hj
        simp only [Option.some.injEq] at h
        subst h
        obtain ⟨h1, h2, h3⟩ := ih hj
        refine ⟨by simp; omega, by simpa using h2, ?_⟩
        simp only [List.take_succ_cons, List.mem_cons, not_or]
        exact ⟨fun hc => hb hc.symm, h3⟩

/-! ## The byte-by-byte reading -/

theorem emit_false_of_not_mem (pfx sfx : Bytes) {p : Bytes} (h : nl ∉ p) :
    emit pfx sfx false p = p := by
  induction p with
  | nil => rfl
  | cons b bs ih =>
    simp only [List.mem_cons, not_or] at h
    have hb : b ≠ nl := fun hc => h.1 hc.symm
    simp [emit, hb, ih h.2]

theorem emit_of_index_none (pfx sfx : Bytes) (h : Bool) {p : Bytes} (hp : p ≠ [])
    (hi : indexByte p nl = none) :
    emit pfx sfx h p = (if h then pfx else []) ++ p := by
  have hm := indexByte_none hi
  cases p with
  | nil => exact absurd rfl hp
  | cons b bs =>
    simp only [List.mem_cons, not_or] at hm
    have hb : b ≠ nl := fun hc => hm.1 hc.symm
    simp [emit, hb, emit_false_of_not_mem pfx sfx hm.2]

theorem emit_of_index_some (pfx sfx : Bytes) (h : Bool) {p : Bytes} {i : Nat}
    (hi : indexByte p nl = some i) :
    emit pfx sfx h p =
      (if h then pfx else []) ++ (p.take i ++ (sfx ++ emit pfx sfx true (p.drop (i + 1)))) := by
  induction p generalizing i h with
  | nil => simp [indexByte] at hi
  | cons b bs ih =>
    simp only [indexByte] at hi
    split at hi
    · rename_i hb
      simp only [Option.some.injEq] at hi
      subst hi
      simp [emit, hb]
    · rename_i hb
      split at hi
      · simp at hi
      · rename_i j hj
        simp only [Option.some.injEq] at hi
        subst hi
        simp [emit, hb, ih false hj]

theorem headAfter_of_index_none (h : Bool) {p : Bytes} (hp : p ≠ [])
    (hi : indexByte p nl = none) : headAfter h p = false := by
  have hm := indexByte_none hi
  induction p generalizing h with
  | nil => exact absurd rfl hp
  | cons b bs ih =>
    simp only [List.mem_cons, not_or] at hm
    have hb : b ≠ nl := fun hc => hm.1 hc.symm
    cases bs with
    | nil => simp [headAfter, hb]
    | cons b2 bs2 =>
      simp only [headAfter]
      have hi2 : indexByte (b2 :: bs2) nl = none := by
        simp only [indexByte, hb, if_false] at hi
        split at hi
        · assumption
        · simp at hi
      have := ih (decide (b = nl)) (by simp) hi2 hm.2
      simpa [headAfter] using this

theorem headAfter_of_index_some (h : Bool) {p : Bytes} {i : Nat}
    (hi : indexByte p nl = some i) : headAfter h p = headAfter true (p.drop (i + 1)) := by
  induction p generalizing i h with
  | nil => simp [indexByte] at hi
  | cons b bs ih =>
    simp only [indexByte] at hi
    split at hi
    · rename_i hb
      simp only [Option.some.injEq] at hi
      subst hi
      simp [headAfter, hb]
    · rename_i hb
      split at hi
      · simp at hi
      · rename_i j hj
        simp only [Option.some.injEq] at hi
        subst hi
        simp only [headAfter, List.drop_succ_cons]
        exact ih _ hj

theorem emit_append (pfx sfx : Bytes) (h : Bool) (a b : Bytes) :
    emit pfx sfx h (a ++ b) = emit pfx sfx h a ++ emit pfx sfx (headAfter h a) b := by
  induction a generalizing h with
  | nil => simp [emit, headAfter]
  | cons x xs ih =>
    by_cases hx : x = nl
    · simp [emit, headAfter, hx, ih]
    · simp [emit, headAfter, hx, ih]

theorem headAfter_append (h : Bool) (a b : Bytes) :
    headAfter h (a ++ b) = headAfter (headAfter h a) b := by
  induction a generalizing h with
  | nil => simp [headAfter]
  | cons x xs ih => simp [headAfter, ih]

/-! ## Observations on the trace -/

theorem received_append (a b : List (Event ε)) : received (a ++ b) = received a ++ received b := by
  induction a with
  | nil => rfl
  | cons x xs ih => cases x <;> simp [received, ih]

theorem flushCount_append (a b : List (Event ε)) :
    flushCount (a ++ b) = flushCount a + flushCount b := by
  induction a with
  | nil => simp [flushCount]
  | cons x xs ih =>
    cases x
    · simp [flushCount, ih]
    · simp [flushCount, ih]; omega

theorem sinkWrite_accepts {S : Sink σ ε} (hS : AcceptsAll S) (world : World σ ε) (c : Bytes) :
    (sinkWrite S world c).nn = c.length ∧ (sinkWrite S world c).err = none ∧
      (sinkWrite S world c).world.trace = world.trace ++ [Event.write c c.length none] := by
  have h := hS world.sink c
  have h1 : (S.Write world.sink c).1.1 = (c.length : Int) := by rw [h]
  have h2 : (S.Write world.sink c).1.2 = none := by rw [h]
  simp [sinkWrite, h1, h2]

/-! ## The loop over a sink that accepts everything -/

theorem Writer.loop_accepts (fuel : Nat) (w : Writer σ ε) (world : World σ ε) (p : Bytes)
    (n : Int) (hS : AcceptsAll w.w) (hf : p.length ≤ fuel) :
    (w.loop fuel world p n).n = n + p.length ∧
    (w.loop fuel world p n).err = none ∧
    (w.loop fuel world p n).writer =
      { w with head := headAfter w.head p,
               written := w.written + (emit w.pfx w.sfx w.head p).length } ∧
    received (w.loop fuel world p n).world.trace =
      received world.trace ++ emit w.pfx w.sfx w.head p ∧
    flushCount (w.loop fuel world p n).world.trace = flushCount world.trace := by
  induction fuel generalizing w world p n with
  | zero =>
    have hp : p = [] := List.length_eq_zero.mp (by omega)
    subst hp
    simp [Writer.loop, emit, headAfter]
  | succ fuel ih =>
    by_cases hp : p = []
    · subst hp
      simp [Writer.loop, emit, headAfter]
    · have hlen : 0 < p.length := List.length_pos.mpr hp
      obtain ⟨S, fl, pfx, sfx, head, written⟩ := w
      simp only at hS
      cases hidx : indexByte p nl with
      | none =>
        have he := emit_of_index_none pfx sfx head hp hidx
        have hh := headAfter_of_index_none head hp hidx
        cases head
        · simp [Writer.loop, hlen, hidx, sinkWrite_accepts hS, he, hh, received_append,
            flushCount_append, received, flushCount]
        · simp [Writer.loop, hlen, hidx, sinkWrite_accepts hS, he, hh, received_append,
            flushCount_append, received, flushCount]
          omega
      | some i =>
        have he := emit_of_index_some pfx sfx head hidx
        have hh := headAfter_of_index_some head hidx
        obtain ⟨hi1, hi2, _⟩ := indexByte_some hidx
        have hdrop : (p.drop (i + 1)).length ≤ fuel := by rw [List.length_drop]; omega
        have hmin : min i p.length = i := by omega
        cases head
        · simp only [Writer.loop, hlen, if_true, Bool.false_eq_true, if_false, hidx,
            sinkWrite_accepts hS]
          have := ih ⟨S, fl, pfx, sfx, true, written + ((p.take i).length : Int) + (sfx.length : Int)⟩
            (sinkWrite S (sinkWrite S world (p.take i)).world sfx).world (p.drop (i + 1))
            (n + ((p.take i).length : Int) + 1) hS hdrop
          obtain ⟨h1, h2, h3, h4, h5⟩ := this
          refine ⟨?_, h2, ?_, ?_, ?_⟩
          · rw [h1]; simp [List.length_drop, hmin]; omega
          · rw [h3, he, hh]; simp [hmin, List.length_drop]; omega
          · rw [h4, he]; simp [sinkWrite_accepts hS, received_append, received]
            exact Or.inl hi1.le
          · rw [h5]; simp [sinkWrite_accepts hS, flushCount_append, flushCount]
        · simp only [Writer.loop, hlen, if_true, hidx, sinkWrite_accepts hS]
          have := ih ⟨S, fl, pfx, sfx, true,
              written + (pfx.length : Int) + ((p.take i).length : Int) + (sfx.length : Int)⟩
            (sinkWrite S (sinkWrite S (sinkWrite S world pfx).world (p.take i)).world sfx).world
            (p.drop (i + 1)) (n + ((p.take i).length : Int) + 1) hS hdrop
          obtain ⟨h1, h2, h3, h4, h5⟩ := this
          refine ⟨?_, h2, ?_, ?_, ?_⟩
          · rw [h1]; simp [List.length_drop, hmin]; omega
          · rw [h3, he, hh]; simp [hmin, List.length_drop]; omega
          · rw [h4, he]; simp [sinkWrite_accepts hS, received_append, received]
            exact Or.inl hi1.le
          · rw [h5]; simp [sinkWrite_accepts hS, flushCount_append, flushCount]

/-! ## The specification's `decorate` -/

/-- The split is a split: gluing the lines, each with its terminator, and the rest gives `p`
back; no line and no rest contains a terminator. -/
theorem splitLines_spec (p : Bytes) :
    ((splitLines p).1.map (fun L => L ++ [nl])).flatten ++ (splitLines p).2 = p ∧
      (∀ L ∈ (splitLines p).1, nl ∉ L) ∧ nl ∉ (splitLines p).2 := by
  induction p with
  | nil => simp [splitLines]
  | cons b bs ih =>
    obtain ⟨h1, h2, h3⟩ := ih
    by_cases hb : b = nl
    · subst hb
      simp only [splitLines, if_true]
      refine ⟨by simpa using h1, ?_, h3⟩
      intro L hL
      simp only [List.mem_cons] at hL
      rcases hL with rfl | hL
      · simp
      · exact h2 L hL
    · have hb2 : ¬ nl = b := fun hc => hb hc.symm
      simp only [splitLines, hb, if_false]
      cases hs : (splitLines bs).1 with
      | nil =>
        rw [hs] at h1
        simp only [List.map_nil, List.flatten_nil, List.nil_append] at h1
        rw [h1] at h3
        simp [h1, hb2, h3]
      | cons l ls =>
        rw [hs] at h1 h2
        refine ⟨by simpa using h1, ?_, h3⟩
        intro L hL
        simp only [List.mem_cons] at hL
        rcases hL with rfl | hL
        · have := h2 l (by simp)
          simp [hb2, this]
        · exact h2 L (by simp [hL])

theorem emit_eq_decorate_aux (pfx suffix p : Bytes) :
    emit pfx (suffix ++ [nl]) true p = decorate pfx suffix p ∧
    emit pfx (suffix ++ [nl]) false p =
      (match (splitLines p).1 with
        | [] => (splitLines p).2
        | l :: ls => l ++ suffix ++ [nl] ++
            ((ls.map (fun L => pfx ++ L ++ suffix ++ [nl])).flatten ++
              (if (splitLines p).2 = [] then [] else pfx ++ (splitLines p).2))) := by
  induction p with
  | nil => simp [emit, decorate, splitLines]
  | cons b bs ih =>
    obtain ⟨ih1, ih2⟩ := ih
    by_cases hb : b = nl
    · subst hb
      simp only [emit, if_true, ih1, decorate, splitLines]
      simp
    · simp only [emit, hb, if_false, ih2, decorate, splitLines]
      cases hs : (splitLines bs).1 with
      | nil => simp
      | cons l ls => simp

theorem emit_eq_decorate (pfx suffix p : Bytes) :
    emit pfx (suffix ++ [nl]) true p = decorate pfx suffix p :=
  (emit_eq_decorate_aux pfx suffix p).1

/-! ## The loop over an arbitrary sink -/

theorem writeError_append (a b : List (Event ε)) :
    writeError (a ++ b) = (writeError a).or (writeError b) := by
  induction a with
  | nil => simp [writeError]
  | cons x xs ih =>
    cases x with
    | write c nn err => cases err <;> simp [writeError, ih]
    | flush err => simp [writeError, ih]

theorem sinkWrite_trace (S : Sink σ ε) (world : World σ ε) (c : Bytes) :
    (sinkWrite S world c).world.trace =
      world.trace ++ [Event.write c (sinkWrite S world c).nn (sinkWrite S world c).err] := rfl

/-- An iteration entered at a line start writes the prefix and, unless that write failed,
goes on as the same iteration entered with `head = false`. -/
theorem Writer.loop_head (fuel : Nat) (S : Sink σ ε) (fl : World σ ε → Option ε × World σ ε)
    (pfx sfx : Bytes) (written : Int) (world : World σ ε) (p : Bytes) (n : Int)
    (hp : 0 < p.length) :
    Writer.loop (fuel + 1) ⟨S, fl, pfx, sfx, true, written⟩ world p n =
      match (sinkWrite S world pfx).err with
      | some e => ⟨n, some e, ⟨S, fl, pfx, sfx, true, written + (sinkWrite S world pfx).nn⟩,
          (sinkWrite S world pfx).world⟩
      | none => Writer.loop (fuel + 1)
          ⟨S, fl, pfx, sfx, false, written + (sinkWrite S world pfx).nn⟩
          (sinkWrite S world pfx).world p n := by
  simp only [Writer.loop, hp, if_true, gt_iff_lt]
  cases (sinkWrite S world pfx).err with
  | some e => rfl
  | none => simp

/-- An iteration entered inside a line. -/
theorem Writer.loop_body (fuel : Nat) (S : Sink σ ε) (fl : World σ ε → Option ε × World σ ε)
    (pfx sfx : Bytes) (written : Int) (world : World σ ε) (p : Bytes) (n : Int)
    (hp : 0 < p.length) :
    Writer.loop (fuel + 1) ⟨S, fl, pfx, sfx, false, written⟩ world p n =
      match indexByte p nl with
      | none => ⟨n + (sinkWrite S world p).nn, (sinkWrite S world p).err,
          ⟨S, fl, pfx, sfx, false, written + (sinkWrite S world p).nn⟩, (sinkWrite S world p).world⟩
      | some i =>
        match (sinkWrite S world (p.take i)).err with
        | some e => ⟨n + (sinkWrite S world (p.take i)).nn, some e,
            ⟨S, fl, pfx, sfx, false, written + (sinkWrite S world (p.take i)).nn⟩,
            (sinkWrite S world (p.take i)).world⟩
        | none =>
          match (sinkWrite S (sinkWrite S world (p.take i)).world sfx).err with
          | some e => ⟨n + (sinkWrite S world (p.take i)).nn + 1, some e,
              ⟨S, fl, pfx, sfx, false, written + (sinkWrite S world (p.take i)).nn +
                (sinkWrite S (sinkWrite S world (p.take i)).world sfx).nn⟩,
              (sinkWrite S (sinkWrite S world (p.take i)).world sfx).world⟩
          | none => Writer.loop fuel
              ⟨S, fl, pfx, sfx, true, written + (sinkWrite S world (p.take i)).nn +
                (sinkWrite S (sinkWrite S world (p.take i)).world sfx).nn⟩
              (sinkWrite S (sinkWrite S world (p.take i)).world sfx).world (p.drop (i + 1))
              (n + (sinkWrite S world (p.take i)).nn + 1) := by
  simp only [Writer.loop, hp, if_true, gt_iff_lt, Bool.false_eq_true, if_false]

theorem Writer.loop_nil (fuel : Nat) (w : Writer σ ε) (world : World σ ε) (n : Int) :
    w.loop fuel world [] n = ⟨n, none, w, world⟩ := by
  cases fuel <;> simp [Writer.loop]

/-- The loop never touches the fields `w`, `flush`, `prefix` and `suffix`. -/
theorem Writer.loop_frame (fuel : Nat) (w : Writer σ ε) (world : World σ ε) (p : Bytes)
    (n : Int) :
    (w.loop fuel world p n).writer.w = w.w ∧ (w.loop fuel world p n).writer.flush = w.flush ∧
    (w.loop fuel world p n).writer.pfx = w.pfx ∧ (w.loop fuel world p n).writer.sfx = w.sfx := by
  induction fuel generalizing w world p n with
  | zero => simp [Writer.loop]
  | succ fuel ih =>
    by_cases hp : p = []
    · subst hp; simp [Writer.loop_nil]
    have hlen : 0 < p.length := List.length_pos.mpr hp
    obtain ⟨S, fl, pfx, sfx, head, written⟩ := w
    have hbody : ∀ (written : Int) (world : World σ ε),
        (Writer.loop (fuel + 1) ⟨S, fl, pfx, sfx, false, written⟩ world p n).writer.w = S ∧
        (Writer.loop (fuel + 1) ⟨S, fl, pfx, sfx, false, written⟩ world p n).writer.flush = fl ∧
        (Writer.loop (fuel + 1) ⟨S, fl, pfx, sfx, false, written⟩ world p n).writer.pfx = pfx ∧
        (Writer.loop (fuel + 1) ⟨S, fl, pfx, sfx, false, written⟩ world p n).writer.sfx = sfx := by
      intro written world
      rw [Writer.loop_body fuel S fl pfx sfx written world p n hlen]
      split
      · simp
      · split
        · simp
        · split
          · simp
          · exact ih _ _ _ _
    cases head
    · exact hbody written world
    · rw [Writer.loop_head fuel S fl pfx sfx written world p n hlen]
      split
      · simp
      · exact hbody _ _

/-- The sink calls of the loop: only writes, appended to the trace; the loop returns the
error of the first write that failed, and `nil` when none did. -/
theorem Writer.loop_trace (fuel : Nat) (w : Writer σ ε) (world : World σ ε) (p : Bytes)
    (n : Int) :
    ∃ evs : List (Event ε), (w.loop fuel world p n).world.trace = world.trace ++ evs ∧
      flushCount evs = 0 ∧ writeError evs = (w.loop fuel world p n).err := by
  induction fuel generalizing w world p n with
  | zero => exact ⟨[], by simp [Writer.loop], rfl, rfl⟩
  | succ fuel ih =>
    by_cases hp : p = []
    · subst hp; exact ⟨[], by simp [Writer.loop_nil], rfl, by simp [Writer.loop_nil, writeError]⟩
    have hlen : 0 < p.length := List.length_pos.mpr hp
    obtain ⟨S, fl, pfx, sfx, head, written⟩ := w
    have hbody : ∀ (written : Int) (world : World σ ε),
        ∃ evs : List (Event ε),
          (Writer.loop (fuel + 1) ⟨S, fl, pfx, sfx, false, written⟩ world p n).world.trace =
            world.trace ++ evs ∧ flushCount evs = 0 ∧
          writeError evs =
            (Writer.loop (fuel + 1) ⟨S, fl, pfx, sfx, false, written⟩ world p n).err := by
      intro written world
      rw [Writer.loop_body fuel S fl pfx sfx written world p n hlen]
      split
      · refine ⟨[Event.write p (sinkWrite S world p).nn (sinkWrite S world p).err],
          sinkWrite_trace _ _ _, rfl, ?_⟩
        cases h : (sinkWrite S world p).err <;> simp [writeError]
      · rename_i i hidx
        split
        · rename_i e he
          exact ⟨[Event.write (p.take i) (sinkWrite S world (p.take i)).nn (some e)],
            by rw [sinkWrite_trace, he], rfl, by simp [writeError]⟩
        · rename_i he
          split
          · rename_i e2 he2
            refine ⟨[Event.write (p.take i) (sinkWrite S world (p.take i)).nn none,
              Event.write sfx (sinkWrite S (sinkWrite S world (p.take i)).world sfx).nn
                (some e2)], ?_, rfl, by simp [writeError]⟩
            rw [sinkWrite_trace, sinkWrite_trace, he, he2]; simp
          · rename_i he2
            obtain ⟨evs, h1, h2, h3⟩ := ih
              ⟨S, fl, pfx, sfx, true, written + (sinkWrite S world (p.take i)).nn +
                (sinkWrite S (sinkWrite S world (p.take i)).world sfx).nn⟩
              (sinkWrite S (sinkWrite S world (p.take i)).world sfx).world (p.drop (i + 1))
              (n + (sinkWrite S world (p.take i)).nn + 1)
            refine ⟨Event.write (p.take i) (sinkWrite S world (p.take i)).nn none ::
              Event.write sfx (sinkWrite S (sinkWrite S world (p.take i)).world sfx).nn none ::
              evs, ?_, ?_, ?_⟩
            · rw [h1, sinkWrite_trace, sinkWrite_trace, he, he2]; simp
            · simpa [flushCount] using h2
            · simpa [writeError] using h3
    cases head
    · exact hbody written world
    · rw [Writer.loop_head fuel S fl pfx sfx written world p n hlen]
      split
      · rename_i e he
        exact ⟨[Event.write pfx (sinkWrite S world pfx).nn (some e)],
          by rw [sinkWrite_trace, he], rfl, by simp [writeError]⟩
      · rename_i he
        obtain ⟨evs, h1, h2, h3⟩ := hbody (written + (sinkWrite S world pfx).nn)
          (sinkWrite S world pfx).world
        refine ⟨Event.write pfx (sinkWrite S world pfx).nn none :: evs, ?_, ?_, ?_⟩
        · rw [h1, sinkWrite_trace, he]; simp
        · simpa [flushCount] using h2
        · simpa [writeError] using h3

/-- Bounds on the count of the loop over a sink whose counts are in range. -/
theorem Writer.loop_bound (fuel : Nat) (w : Writer σ ε) (world : World σ ε) (p : Bytes)
    (n : Int) (Inv : σ → Prop) (hS : CountsInRange w.w Inv) (h0 : Inv world.sink) :
    n ≤ (w.loop fuel world p n).n ∧ (w.loop fuel world p n).n ≤ n + p.length := by
  induction fuel generalizing w world p n with
  | zero => simp [Writer.loop]
  | succ fuel ih =>
    by_cases hp : p = []
    · subst hp; simp [Writer.loop_nil]
    have hlen : 0 < p.length := List.length_pos.mpr hp
    obtain ⟨S, fl, pfx, sfx, head, written⟩ := w
    simp only at hS
    have hnn : ∀ (wd : World σ ε) (c : Bytes), Inv wd.sink →
        Inv (sinkWrite S wd c).world.sink ∧
        0 ≤ (sinkWrite S wd c).nn ∧ (sinkWrite S wd c).nn ≤ (c.length : Int) :=
      fun wd c h => hS wd.sink c h
    have hbody : ∀ (written : Int) (world : World σ ε), Inv world.sink →
        n ≤ (Writer.loop (fuel + 1) ⟨S, fl, pfx, sfx, false, written⟩ world p n).n ∧
        (Writer.loop (fuel + 1) ⟨S, fl, pfx, sfx, false, written⟩ world p n).n ≤
          n + p.length := by
      intro written world hw
      rw [Writer.loop_body fuel S fl pfx sfx written world p n hlen]
      split
      · have := hnn world p hw
        simp only; omega
      · rename_i i hidx
        obtain ⟨hi1, _, _⟩ := indexByte_some hidx
        have h1 := hnn world (p.take i) hw
        have h2 := hnn (sinkWrite S world (p.take i)).world sfx h1.1
        have hl : ((p.take i).length : Int) = i := by
          rw [List.length_take]; omega
        split
        · simp only; omega
        · split
          · simp only; omega
          · have := ih ⟨S, fl, pfx, sfx, true, written + (sinkWrite S world (p.take i)).nn +
                (sinkWrite S (sinkWrite S world (p.take i)).world sfx).nn⟩
              (sinkWrite S (sinkWrite S world (p.take i)).world sfx).world (p.drop (i + 1))
              (n + (sinkWrite S world (p.take i)).nn + 1) hS h2.1
            have hd : ((p.drop (i + 1)).length : Int) = p.length - (i + 1) := by
              rw [List.length_drop]; omega
            omega
    cases head
    · exact hbody written world h0
    · rw [Writer.loop_head fuel S fl pfx sfx written world p n hlen]
      split
      · simp only; omega
      · exact hbody _ _ (hnn world pfx h0).1

/-! ## `Write` and sequences of `Write` -/

theorem getFlush_spec (S : Sink σ ε) (world : World σ ε) :
    ∃ evs : List (Event ε), (getFlush S world).2.trace = world.trace ++ evs ∧
      received evs = [] ∧ chunks evs = [] ∧
      flushCount evs = (if S.Flush.isSome then 1 else 0) := by
  unfold getFlush
  cases S.Flush with
  | none => exact ⟨[], by simp [nop], rfl, rfl, by simp [flushCount]⟩
  | some f => exact ⟨[Event.flush (f world.sink).1], rfl, rfl, rfl, by simp [flushCount]⟩

/-- A call of `Write` never touches the fields `w`, `flush`, `prefix` and `suffix`. -/
theorem Writer.Write_frame (w : Writer σ ε) (world : World σ ε) (p : Bytes) :
    (w.Write world p).writer.w = w.w ∧ (w.Write world p).writer.flush = w.flush ∧
    (w.Write world p).writer.pfx = w.pfx ∧ (w.Write world p).writer.sfx = w.sfx := by
  unfold Writer.Write
  split
  · simp
  · have h := Writer.loop_frame p.length w world p 0
    simp only
    split <;> exact h

/-- A call of `Write` on a sink that accepts everything. -/
theorem Writer.Write_accepts (w : Writer σ ε) (world : World σ ε) (p : Bytes)
    (hS : AcceptsAll w.w) :
    (w.Write world p).n = p.length ∧
    (w.Write world p).writer =
      { w with head := headAfter w.head p,
               written := w.written + (emit w.pfx w.sfx w.head p).length } ∧
    (p ≠ [] → (w.Write world p).err =
      (w.flush (w.loop p.length world p 0).world).1) ∧
    (p = [] → (w.Write world p).err = none) ∧
    (w.flush = getFlush w.w →
      received (w.Write world p).world.trace =
        received world.trace ++ emit w.pfx w.sfx w.head p) := by
  obtain ⟨h1, h2, h3, h4, _⟩ := Writer.loop_accepts p.length w world p 0 hS (le_refl _)
  by_cases hp : p = []
  · subst hp
    simp [Writer.Write, emit, headAfter]
  · have hlen : ¬ p.length = 0 := fun h => hp (List.length_eq_zero.mp h)
    simp only [Writer.Write, hlen, if_false, h2]
    refine ⟨by simpa using h1, h3, fun _ => by rw [h3], fun h => absurd h hp, fun hfl => ?_⟩
    rw [h3]
    simp only
    rw [hfl]
    obtain ⟨evs, e1, e2, _, _⟩ := getFlush_spec w.w (w.loop p.length world p 0).world
    rw [e1, received_append, e2, h4]
    simp

theorem headAfter_getLast (h : Bool) (a : Bytes) (ha : a ≠ []) :
    headAfter h a = decide (a.getLast ha = nl) := by
  induction a generalizing h with
  | nil => exact absurd rfl ha
  | cons x xs ih =>
    cases xs with
    | nil => simp [headAfter]
    | cons y ys =>
      have := ih (decide (x = nl)) (by simp)
      simpa [headAfter] using this

/-- A sequence of `Write` calls on a sink that accepts everything behaves as one call on
the concatenation of the inputs. -/
theorem Writer.WriteSeq_accepts (w : Writer σ ε) (world : World σ ε) (ps : List Bytes)
    (hS : AcceptsAll w.w) (hfl : w.flush = getFlush w.w) :
    (w.WriteSeq world ps).2.1 =
      { w with head := headAfter w.head ps.flatten,
               written := w.written + (emit w.pfx w.sfx w.head ps.flatten).length } ∧
    received (w.WriteSeq world ps).2.2.trace =
      received world.trace ++ emit w.pfx w.sfx w.head ps.flatten ∧
    (w.WriteSeq world ps).1.map Prod.fst = ps.map (fun p => (p.length : Int)) := by
  induction ps generalizing w world with
  | nil => simp [Writer.WriteSeq, emit, headAfter]
  | cons p ps ih =>
    obtain ⟨_, h2, _, _, h5⟩ := Writer.Write_accepts w world p hS
    obtain ⟨f1, f2, _, _⟩ := Writer.Write_frame w world p
    have h1 := (Writer.Write_accepts w world p hS).1
    obtain ⟨i1, i2, i3⟩ := ih (w.Write world p).writer (w.Write world p).world
      (by rw [f1]; exact hS) (by rw [f2, f1]; exact hfl)
    simp only [Writer.WriteSeq, List.flatten_cons, emit_append, headAfter_append]
    refine ⟨?_, ?_, ?_⟩
    · rw [i1, h2]; simp; omega
    · rw [i2, h5 hfl, h2]; simp
    · simp [i3, h1]

/-! ## The first sink calls of a `Write` -/

/-- The trace after `Write`: the trace of the loop, then the sink's `Flush` when the loop
returned `nil` and the sink has one. -/
theorem Writer.Write_trace (w : Writer σ ε) (world : World σ ε) (p : Bytes) (hp : p ≠ [])
    (hfl : w.flush = getFlush w.w) :
    (w.Write world p).n = (w.loop p.length world p 0).n ∧
    (w.Write world p).writer = (w.loop p.length world p 0).writer ∧
    ∃ evs : List (Event ε),
      (w.Write world p).world.trace = (w.loop p.length world p 0).world.trace ++ evs ∧
      chunks evs = [] ∧ received evs = [] ∧
      flushCount evs =
        (if ((w.loop p.length world p 0).err.isNone && w.w.Flush.isSome) = true then 1 else 0) ∧
      ((w.loop p.length world p 0).err ≠ none →
        evs = [] ∧ (w.Write world p).err = (w.loop p.length world p 0).err) := by
  have hlen : ¬ p.length = 0 := fun h => hp (List.length_eq_zero.mp h)
  obtain ⟨f1, f2, _, _⟩ := Writer.loop_frame p.length w world p 0
  simp only [Writer.Write, hlen, if_false]
  cases herr : (w.loop p.length world p 0).err with
  | some e => exact ⟨rfl, rfl, [], by simp, rfl, rfl, by simp [flushCount], fun _ => ⟨rfl, herr⟩⟩
  | none =>
    rw [f2, hfl]
    obtain ⟨evs, e1, e2, e3, e4⟩ := getFlush_spec w.w (w.loop p.length world p 0).world
    exact ⟨rfl, rfl, evs, e1, e3, e2, by simpa using e4, fun h => absurd rfl h⟩

/-- The first sink call of an iteration entered inside a line is the write of the first
payload chunk. -/
theorem Writer.loop_body_first (fuel : Nat) (S : Sink σ ε)
    (fl : World σ ε → Option ε × World σ ε) (pfx sfx : Bytes) (written : Int)
    (world : World σ ε) (p : Bytes) (n : Int) (hp : 0 < p.length) :
    ∃ rest : List (Event ε),
      (Writer.loop (fuel + 1) ⟨S, fl, pfx, sfx, false, written⟩ world p n).world.trace =
        world.trace ++ Event.write (firstPayload p) (sinkWrite S world (firstPayload p)).nn
          (sinkWrite S world (firstPayload p)).err :: rest := by
  rw [Writer.loop_body fuel S fl pfx sfx written world p n hp]
  unfold firstPayload
  split
  · exact ⟨[], by simp [sinkWrite_trace]⟩
  · rename_i i hidx
    split
    · exact ⟨[], by simp [sinkWrite_trace]⟩
    · split
      · exact ⟨[Event.write sfx (sinkWrite S (sinkWrite S world (p.take i)).world sfx).nn
            (sinkWrite S (sinkWrite S world (p.take i)).world sfx).err], by
          simp only; rw [sinkWrite_trace, sinkWrite_trace]; simp⟩
      · obtain ⟨evs, h1, _, _⟩ := Writer.loop_trace fuel
          ⟨S, fl, pfx, sfx, true, written + (sinkWrite S world (p.take i)).nn +
            (sinkWrite S (sinkWrite S world (p.take i)).world sfx).nn⟩
          (sinkWrite S (sinkWrite S world (p.take i)).world sfx).world (p.drop (i + 1))
          (n + (sinkWrite S world (p.take i)).nn + 1)
        exact ⟨Event.write sfx (sinkWrite S (sinkWrite S world (p.take i)).world sfx).nn
            (sinkWrite S (sinkWrite S world (p.take i)).world sfx).err :: evs, by
          rw [h1, sinkWrite_trace, sinkWrite_trace]; simp⟩

/-- The first sink call of an iteration entered at a line start is the write of the prefix;
when it returns `nil` the next one is the write of the first payload chunk. -/
theorem Writer.loop_head_first (fuel : Nat) (S : Sink σ ε)
    (fl : World σ ε → Option ε × World σ ε) (pfx sfx : Bytes) (written : Int)
    (world : World σ ε) (p : Bytes) (n : Int) (hp : 0 < p.length) :
    ∃ rest : List (Event ε),
      (Writer.loop (fuel + 1) ⟨S, fl, pfx, sfx, true, written⟩ world p n).world.trace =
        world.trace ++ Event.write pfx (sinkWrite S world pfx).nn
          (sinkWrite S world pfx).err :: rest ∧
      ((sinkWrite S world pfx).err ≠ none → rest = []) ∧
      ((sinkWrite S world pfx).err = none → ∃ rest2 : List (Event ε), rest =
        Event.write (firstPayload p)
          (sinkWrite S (sinkWrite S world pfx).world (firstPayload p)).nn
          (sinkWrite S (sinkWrite S world pfx).world (firstPayload p)).err :: rest2) := by
  rw [Writer.loop_head fuel S fl pfx sfx written world p n hp]
  cases he : (sinkWrite S world pfx).err with
  | some e =>
    exact ⟨[], by simp only; rw [sinkWrite_trace, he], fun _ => rfl, fun h => by simp at h⟩
  | none =>
    obtain ⟨rest2, h⟩ := Writer.loop_body_first fuel S fl pfx sfx
      (written + (sinkWrite S world pfx).nn) (sinkWrite S world pfx).world p n hp
    refine ⟨_, ?_, fun h => absurd rfl h, fun _ => ⟨rest2, rfl⟩⟩
    simp only
    rw [h, sinkWrite_trace, he]
    simp

theorem writeError_of_chunks_nil (evs : List (Event ε)) (h : chunks evs = []) :
    writeError evs = none := by
  induction evs with
  | nil => rfl
  | cons x xs ih =>
    cases x with
    | write c nn err => simp [chunks] at h
    | flush err => simpa [writeError] using ih (by simpa [chunks] using h)

theorem Writer.callEvents_of_trace (w : Writer σ ε) (world : World σ ε) (p : Bytes)
    (evs : List (Event ε)) (h : (w.Write world p).world.trace = world.trace ++ evs) :
    w.callEvents world p = evs := by
  simp [Writer.callEvents, h]

/-- The sink calls of one `Write`: the writes of the loop, then at most one flush; the
flush is there exactly when the input is not empty, no write failed and the sink has a
`Flush`; when a write failed its error is what `Write` returns. -/
theorem Writer.Write_events (w : Writer σ ε) (world : World σ ε) (p : Bytes)
    (hfl : w.flush = getFlush w.w) :
    (w.Write world p).world.trace = world.trace ++ w.callEvents world p ∧
    (p = [] → w.callEvents world p = []) ∧
    (p ≠ [] → writeError (w.callEvents world p) = none →
      flushCount (w.callEvents world p) = (if w.w.Flush.isSome = true then 1 else 0)) ∧
    (∀ e : ε, writeError (w.callEvents world p) = some e →
      flushCount (w.callEvents world p) = 0 ∧ (w.Write world p).err = some e) := by
  by_cases hp : p = []
  · subst hp
    have h0 : w.callEvents world [] = [] := by simp [Writer.callEvents, Writer.Write]
    rw [h0]
    exact ⟨by simp [Writer.Write], fun _ => rfl, fun h => absurd rfl h,
      fun e h => by simp [writeError] at h⟩
  · obtain ⟨_, _, fevs, t1, t2, _, t4, t5⟩ := Writer.Write_trace w world p hp hfl
    obtain ⟨levs, l1, l2, l3⟩ := Writer.loop_trace p.length w world p 0
    have htr : (w.Write world p).world.trace = world.trace ++ (levs ++ fevs) := by
      rw [t1, l1, List.append_assoc]
    have hce := Writer.callEvents_of_trace w world p _ htr
    have hwe : writeError (levs ++ fevs) = (w.loop p.length world p 0).err := by
      rw [writeError_append, writeError_of_chunks_nil fevs t2, l3]
      cases (w.loop p.length world p 0).err <;> rfl
    rw [hce]
    refine ⟨htr, fun h => absurd h hp, fun _ hnone => ?_, fun e he => ?_⟩
    · rw [hwe] at hnone
      rw [flushCount_append, l2, t4, hnone]
      simp
    · rw [hwe] at he
      have hne : (w.loop p.length world p 0).err ≠ none := by rw [he]; simp
      obtain ⟨t6, t7⟩ := t5 hne
      rw [flushCount_append, l2, t6, t7, he]
      exact ⟨rfl, rfl⟩

/-- Inside a line the first sink call of a `Write` of a non-empty input is the write of the
first payload chunk, not of the prefix. -/
theorem Writer.Write_first_inside (w : Writer σ ε) (world : World σ ε) (p : Bytes)
    (hp : p ≠ []) (hh : w.head = false) (hfl : w.flush = getFlush w.w) :
    ∃ (nn : Int) (err : Option ε) (rest : List (Event ε)),
      w.callEvents world p = Event.write (firstPayload p) nn err :: rest := by
  obtain ⟨_, _, fevs, t1, _⟩ := Writer.Write_trace w world p hp hfl
  obtain ⟨m, hm⟩ : ∃ m, p.length = m + 1 :=
    Nat.exists_eq_succ_of_ne_zero (fun h => hp (List.length_eq_zero.mp h))
  obtain ⟨S, fl, pfx, sfx, head, written⟩ := w
  simp only at hh
  subst hh
  obtain ⟨rest, hr⟩ := Writer.loop_body_first m S fl pfx sfx written world p 0 (by omega)
  rw [hm, hr] at t1
  exact ⟨(sinkWrite S world (firstPayload p)).nn, (sinkWrite S world (firstPayload p)).err,
    rest ++ fevs, Writer.callEvents_of_trace _ world p _ (by rw [t1]; simp)⟩

/-- A fresh Writer whose prefix write returns `nil` and whose first payload write fails:
`Write` stops there. -/
theorem New_payload_failure (S : Sink σ ε) (pfx sfx p : Bytes) (s0 : σ) (e : ε) (hp : p ≠ [])
    (h0 : (sinkWrite S ⟨s0, []⟩ pfx).err = none)
    (h1 : (sinkWrite S (sinkWrite S ⟨s0, []⟩ pfx).world (firstPayload p)).err = some e) :
    ((New S pfx sfx).Write ⟨s0, []⟩ p).n =
        (sinkWrite S (sinkWrite S ⟨s0, []⟩ pfx).world (firstPayload p)).nn ∧
      ((New S pfx sfx).Write ⟨s0, []⟩ p).err = some e ∧
      ((New S pfx sfx).Write ⟨s0, []⟩ p).world.trace =
        [Event.write pfx (sinkWrite S ⟨s0, []⟩ pfx).nn none,
          Event.write (firstPayload p)
            (sinkWrite S (sinkWrite S ⟨s0, []⟩ pfx).world (firstPayload p)).nn (some e)] := by
  obtain ⟨m, hm⟩ : ∃ m, p.length = m + 1 :=
    Nat.exists_eq_succ_of_ne_zero (fun h => hp (List.length_eq_zero.mp h))
  have hlen : 0 < p.length := by omega
  have hloop := Writer.loop_head m S (getFlush S) pfx (sfx ++ [nl]) 0 ⟨s0, []⟩ p 0 hlen
  rw [h0] at hloop
  simp only at hloop
  rw [Writer.loop_body m S (getFlush S) pfx (sfx ++ [nl]) _ _ p 0 hlen] at hloop
  unfold firstPayload at h1 ⊢
  cases hidx : indexByte p nl with
  | none =>
    rw [hidx] at h1 hloop
    simp only at h1 hloop
    simp only [Writer.Write, New, hm, hloop, h1]
    simp [sinkWrite_trace, h0, h1]
  | some i =>
    rw [hidx] at h1 hloop
    simp only at h1 hloop
    rw [h1] at hloop
    simp only [Writer.Write, New, hm, hloop]
    simp [sinkWrite_trace, h0, h1]

theorem firstPayload_take (p : Bytes) (N : Nat) (hN : N ≤ (firstPayload p).length) :
    (firstPayload p).take N = p.take N := by
  unfold firstPayload at hN ⊢
  cases hidx : indexByte p nl with
  | none => rfl
  | some i =>
    rw [hidx] at hN
    simp only [List.length_take] at hN
    simp only [List.take_take]
    congr 1
    omega

/-! ## The claims -/

/-- C1 (line framing): on a fresh Writer over a sink that accepts every write in full,
`Write(p)` makes the sink receive exactly `decorate(p)`: for each terminated line `L` of `p`
the bytes `prefix ++ L ++ suffix ++ "\n"`, then `prefix ++ R` for a non-empty unterminated
rest `R`; for empty `p` no sink call is made at all. -/
theorem C1_line_framing (S : Sink σ ε) (hS : AcceptsAll S) (pfx sfx p : Bytes) (s0 : σ) :
    received ((New S pfx sfx).Write ⟨s0, []⟩ p).world.trace = decorate pfx sfx p ∧
      (p = [] → ((New S pfx sfx).Write ⟨s0, []⟩ p).world.trace = []) := by
  constructor
  · have h := (Writer.Write_accepts (New S pfx sfx) ⟨s0, []⟩ p hS).2.2.2.2 rfl
    rw [h]
    simp [New, received, emit_eq_decorate]
  · intro hp
    subst hp
    simp [Writer.Write]

/-- C1 at the input `"a\nb"` with prefix `"->"` and suffix `"<"` over `writerFlush`. -/
theorem C1_line_framing_witness :
    AcceptsAll writerFlush ∧
    (received ((New writerFlush [45, 62] [60]).Write ⟨0, []⟩ [97, 10, 98]).world.trace =
        decorate [45, 62] [60] [97, 10, 98] ∧
      (([97, 10, 98] : Bytes) = [] →
        ((New writerFlush [45, 62] [60]).Write ⟨0, []⟩ [97, 10, 98]).world.trace = [])) ∧
    decorate [45, 62] [60] [97, 10, 98] = [45, 62, 97, 60, 10, 45, 62, 98] :=
  ⟨fun _ _ => rfl, C1_line_framing writerFlush (fun _ _ => rfl) [45, 62] [60] [97, 10, 98] 0,
    by decide⟩

/-- C2 (split writes): on a fresh Writer over a sink that accepts every write in full,
`Write(a)` then `Write(b)` delivers to the sink the same bytes as one `Write(a ++ b)` on
another fresh Writer; and when `a` is not empty and does not end in `'\n'`, `head` is false
after `Write(a)` and the first sink call of `Write(b)` is the write of the first payload
chunk of `b`, not of the prefix. -/
theorem C2_split_writes (S : Sink σ ε) (hS : AcceptsAll S) (pfx sfx a b : Bytes) (s0 s0' : σ) :
    received (((New S pfx sfx).Write ⟨s0, []⟩ a).writer.Write
        ((New S pfx sfx).Write ⟨s0, []⟩ a).world b).world.trace =
      received ((New S pfx sfx).Write ⟨s0', []⟩ (a ++ b)).world.trace ∧
    (∀ ha : a ≠ [], a.getLast ha ≠ nl → b ≠ [] →
      ((New S pfx sfx).Write ⟨s0, []⟩ a).writer.head = false ∧
      ∃ (nn : Int) (err : Option ε) (rest : List (Event ε)),
        ((New S pfx sfx).Write ⟨s0, []⟩ a).writer.callEvents
          ((New S pfx sfx).Write ⟨s0, []⟩ a).world b =
            Event.write (firstPayload b) nn err :: rest) := by
  obtain ⟨_, a2, _, _, a5⟩ := Writer.Write_accepts (New S pfx sfx) ⟨s0, []⟩ a hS
  obtain ⟨f1, f2, _, _⟩ := Writer.Write_frame (New S pfx sfx) ⟨s0, []⟩ a
  have hfl : ((New S pfx sfx).Write ⟨s0, []⟩ a).writer.flush =
      getFlush ((New S pfx sfx).Write ⟨s0, []⟩ a).writer.w := by rw [f1, f2]; rfl
  have hS2 : AcceptsAll ((New S pfx sfx).Write ⟨s0, []⟩ a).writer.w := by rw [f1]; exact hS
  constructor
  · have b5 := (Writer.Write_accepts ((New S pfx sfx).Write ⟨s0, []⟩ a).writer
      ((New S pfx sfx).Write ⟨s0, []⟩ a).world b hS2).2.2.2.2 hfl
    have c5 := (Writer.Write_accepts (New S pfx sfx) ⟨s0', []⟩ (a ++ b) hS).2.2.2.2 rfl
    rw [b5, c5, a5 rfl, a2, emit_append]
    simp [received]
  · intro ha hlast hb
    have hh : ((New S pfx sfx).Write ⟨s0, []⟩ a).writer.head = false := by
      rw [a2]
      simp only
      rw [headAfter_getLast _ a ha]
      simpa using hlast
    exact ⟨hh, Writer.Write_first_inside _ _ b hb hh hfl⟩

/-- C2 at `Write("abc")` then `Write("def\n")` against `Write("abcdef\n")`. -/
theorem C2_split_writes_witness :
    AcceptsAll writerFlush ∧
    received (((New writerFlush [62] [60]).Write ⟨0, []⟩ [97, 98, 99]).writer.Write
        ((New writerFlush [62] [60]).Write ⟨0, []⟩ [97, 98, 99]).world
        [100, 101, 102, 10]).world.trace =
      received ((New writerFlush [62] [60]).Write ⟨0, []⟩
        ([97, 98, 99] ++ [100, 101, 102, 10])).world.trace ∧
    received ((New writerFlush [62] [60]).Write ⟨0, []⟩
        ([97, 98, 99] ++ [100, 101, 102, 10])).world.trace =
      [62, 97, 98, 99, 100, 101, 102, 60, 10] :=
  ⟨fun _ _ => rfl,
    (C2_split_writes writerFlush (fun _ _ => rfl) [62] [60] [97, 98, 99] [100, 101, 102, 10]
      0 0).1, by decide⟩

/-- C3 (consumed count on success): for every Writer state, over a sink that accepts every
write in full and whose flush succeeds, `Write(p)` returns `(len(p), nil)`; over any sequence
of such calls every call returns `nil` and the returned counts sum to the number of input
bytes supplied. -/
theorem C3_consumed_count (w : Writer σ ε) (world : World σ ε) (hS : AcceptsAll w.w)
    (hF : ∀ wd : World σ ε, (w.flush wd).1 = none) :
    (∀ p : Bytes, (w.Write world p).n = p.length ∧ (w.Write world p).err = none) ∧
    (∀ ps : List Bytes,
      ((w.WriteSeq world ps).1.map Prod.fst).sum = ((ps.map List.length).sum : Nat) ∧
      ∀ r ∈ (w.WriteSeq world ps).1, r.2 = none) := by
  have single : ∀ (w : Writer σ ε) (world : World σ ε), AcceptsAll w.w →
      (∀ wd : World σ ε, (w.flush wd).1 = none) →
      ∀ p : Bytes, (w.Write world p).n = p.length ∧ (w.Write world p).err = none := by
    intro w world hS hF p
    obtain ⟨h1, _, h3, h4, _⟩ := Writer.Write_accepts w world p hS
    refine ⟨h1, ?_⟩
    by_cases hp : p = []
    · exact h4 hp
    · rw [h3 hp]; exact hF _
  refine ⟨single w world hS hF, fun ps => ?_⟩
  induction ps generalizing w world with
  | nil => simp [Writer.WriteSeq]
  | cons p ps ih =>
    obtain ⟨f1, f2, _, _⟩ := Writer.Write_frame w world p
    obtain ⟨i1, i2⟩ := ih (w.Write world p).writer (w.Write world p).world
      (by rw [f1]; exact hS) (by rw [f2]; exact hF)
    obtain ⟨s1, s2⟩ := single w world hS hF p
    simp only [Writer.WriteSeq, List.map_cons, List.sum_cons, List.mem_cons]
    refine ⟨by rw [i1, s1]; push_cast; rfl, ?_⟩
    rintro r (rfl | hr)
    · exact s2
    · exact i2 r hr

/-- C3 at the two calls `Write("hello\nworld")`, `Write("hello\nworld\n")` of `TestWriter_Flush`. -/
theorem C3_consumed_count_witness :
    AcceptsAll writerFlush ∧
    (∀ wd : World Nat String, ((New writerFlush [] []).flush wd).1 = none) ∧
    ((∀ p : Bytes, ((New writerFlush [] []).Write ⟨0, []⟩ p).n = p.length ∧
        ((New writerFlush [] []).Write ⟨0, []⟩ p).err = none) ∧
      (∀ ps : List Bytes,
        (((New writerFlush [] []).WriteSeq ⟨0, []⟩ ps).1.map Prod.fst).sum =
          ((ps.map List.length).sum : Nat) ∧
        ∀ r ∈ ((New writerFlush [] []).WriteSeq ⟨0, []⟩ ps).1, r.2 = none)) :=
  ⟨fun _ _ => rfl, fun _ => rfl,
    C3_consumed_count (New writerFlush [] []) ⟨0, []⟩ (fun _ _ => rfl) (fun _ => rfl)⟩

/-- C4 (Written accounting): on a fresh Writer over a sink that accepts every write in full,
after any sequence of `Write` calls `Written()` is the number of bytes the sink has received,
which is the length of the decorated output of the inputs laid end to end. -/
theorem C4_written_accounting (S : Sink σ ε) (hS : AcceptsAll S) (pfx sfx : Bytes) (s0 : σ)
    (ps : List Bytes) :
    ((New S pfx sfx).WriteSeq ⟨s0, []⟩ ps).2.1.Written =
        (received ((New S pfx sfx).WriteSeq ⟨s0, []⟩ ps).2.2.trace).length ∧
      received ((New S pfx sfx).WriteSeq ⟨s0, []⟩ ps).2.2.trace =
        decorate pfx sfx ps.flatten := by
  obtain ⟨h1, h2, _⟩ := Writer.WriteSeq_accepts (New S pfx sfx) ⟨s0, []⟩ ps hS rfl
  rw [h2, h1]
  simp [New, Writer.Written, received, emit_eq_decorate]

/-- C4 at the four calls of `Example`: 33 bytes written. -/
theorem C4_written_accounting_witness :
    AcceptsAll writerFlush ∧
    (((New writerFlush [62, 62] [60, 60]).WriteSeq ⟨0, []⟩
        [[104, 101, 108, 108, 111], [32, 119, 111, 114, 108, 100, 10],
          [104, 101, 108, 108, 111, 10], [119, 111, 114, 108, 100]]).2.1.Written =
      (received ((New writerFlush [62, 62] [60, 60]).WriteSeq ⟨0, []⟩
        [[104, 101, 108, 108, 111], [32, 119, 111, 114, 108, 100, 10],
          [104, 101, 108, 108, 111, 10], [119, 111, 114, 108, 100]]).2.2.trace).length ∧
      received ((New writerFlush [62, 62] [60, 60]).WriteSeq ⟨0, []⟩
        [[104, 101, 108, 108, 111], [32, 119, 111, 114, 108, 100, 10],
          [104, 101, 108, 108, 111, 10], [119, 111, 114, 108, 100]]).2.2.trace =
        decorate [62, 62] [60, 60]
          [[104, 101, 108, 108, 111], [32, 119, 111, 114, 108, 100, 10],
            [104, 101, 108, 108, 111, 10], [119, 111, 114, 108, 100]].flatten) ∧
    ((New writerFlush [62, 62] [60, 60]).WriteSeq ⟨0, []⟩
        [[104, 101, 108, 108, 111], [32, 119, 111, 114, 108, 100, 10],
          [104, 101, 108, 108, 111, 10], [119, 111, 114, 108, 100]]).2.1.Written = 33 :=
  ⟨fun _ _ => rfl, C4_written_accounting writerFlush (fun _ _ => rfl) [62, 62] [60, 60] 0 _,
    by decide⟩

/-- C5 (empty input is a no-op): for every Writer state and every sink, also one that would
fail any write or flush, `Write` of the empty input returns `(0, nil)` and leaves the
receiver (so `head` and `Written()`), the sink and the trace as they were: no sink write and
no sink flush is performed. -/
theorem C5_empty_input_noop (w : Writer σ ε) (world : World σ ε) :
    w.Write world [] = ⟨0, none, w, world⟩ ∧ (w.Write world []).writer.head = w.head ∧
      (w.Write world []).writer.Written = w.Written ∧ w.callEvents world [] = [] := by
  simp [Writer.Write, Writer.callEvents]

/-- C6 as stated fails: over `flushFails`, `Write("a")` returns an error (the one of the
flush) although the flush was invoked once, not zero times. -/
theorem C6_flush_counterexample :
    ¬ (((New flushFails [] []).Write ⟨(), []⟩ [97]).err ≠ none →
        flushCount ((New flushFails [] []).callEvents ⟨(), []⟩ [97]) = 0) := by
  decide

/-- C7 (failure during prefix emission): on a fresh Writer, for a non-empty `p` and a sink
whose first write call, the one of the prefix, returns an error with whatever count `k`,
`Write(p)` returns `(0, that error)`; the write of the prefix is the only sink call, so no
byte of `p` is handed to the sink. -/
theorem C7_prefix_failure (S : Sink σ ε) (pfx sfx p : Bytes) (s0 s1 : σ) (k : Int) (e : ε)
    (hp : p ≠ []) (h : S.Write s0 pfx = ((k, some e), s1)) :
    ((New S pfx sfx).Write ⟨s0, []⟩ p).n = 0 ∧
      ((New S pfx sfx).Write ⟨s0, []⟩ p).err = some e ∧
      ((New S pfx sfx).Write ⟨s0, []⟩ p).world.trace = [Event.write pfx k (some e)] := by
  obtain ⟨m, hm⟩ : ∃ m, p.length = m + 1 :=
    Nat.exists_eq_succ_of_ne_zero (fun h => hp (List.length_eq_zero.mp h))
  have hlen : 0 < p.length := by omega
  have he : (sinkWrite S ⟨s0, []⟩ pfx).err = some e := by simp [sinkWrite, h]
  have hloop := Writer.loop_head m S (getFlush S) pfx (sfx ++ [nl]) 0 ⟨s0, []⟩ p 0 hlen
  rw [he] at hloop
  simp only [Writer.Write, New, hm, hloop]
  simp [sinkWrite, h]

/-- C7 at the test of `writer_test.go`: prefix `"123456789"`, input `"ABCDEFG"`, `limitWriter`
with limit 5. -/
theorem C7_prefix_failure_witness :
    ((New limitWriter [49, 50, 51, 52, 53, 54, 55, 56, 57]
        [49, 50, 51, 52, 53, 54, 55, 56, 57, 48]).Write ⟨5, []⟩
        [65, 66, 67, 68, 69, 70, 71]).n = 0 ∧
      ((New limitWriter [49, 50, 51, 52, 53, 54, 55, 56, 57]
        [49, 50, 51, 52, 53, 54, 55, 56, 57, 48]).Write ⟨5, []⟩
        [65, 66, 67, 68, 69, 70, 71]).err = some "limitWriter" ∧
      ((New limitWriter [49, 50, 51, 52, 53, 54, 55, 56, 57]
        [49, 50, 51, 52, 53, 54, 55, 56, 57, 48]).Write ⟨5, []⟩
        [65, 66, 67, 68, 69, 70, 71]).world.trace =
        [Event.write [49, 50, 51, 52, 53, 54, 55, 56, 57] 5 (some "limitWriter")] :=
  C7_prefix_failure limitWriter [49, 50, 51, 52, 53, 54, 55, 56, 57]
    [49, 50, 51, 52, 53, 54, 55, 56, 57, 48] [65, 66, 67, 68, 69, 70, 71] 5 0 5 "limitWriter"
    (by decide) (by decide)

/-- C8 (failure during payload emission): on a fresh Writer, if the first two sink calls of
`Write(p)` are the write of the prefix, accepted in full without error, and the write of
the first payload chunk (the bytes of `p` before its first `'\n'`, or all of `p`), of which
the sink accepts `N` bytes and reports an error, then `Write(p)` returns `(N, that error)`,
these two writes are the only sink calls (no suffix, no terminator, no flush) and the sink
has received exactly `prefix ++ p[0..N)`. -/
theorem C8_payload_failure (S : Sink σ ε) (pfx sfx p : Bytes) (s0 : σ) (N : Nat) (e : ε)
    (hN : N ≤ (firstPayload p).length)
    (h : ((New S pfx sfx).Write ⟨s0, []⟩ p).world.trace.take 2 =
      [Event.write pfx pfx.length none, Event.write (firstPayload p) N (some e)]) :
    ((New S pfx sfx).Write ⟨s0, []⟩ p).n = N ∧
      ((New S pfx sfx).Write ⟨s0, []⟩ p).err = some e ∧
      ((New S pfx sfx).Write ⟨s0, []⟩ p).world.trace =
        [Event.write pfx pfx.length none, Event.write (firstPayload p) N (some e)] ∧
      received ((New S pfx sfx).Write ⟨s0, []⟩ p).world.trace = pfx ++ p.take N := by
  have hp : p ≠ [] := by
    intro hp
    subst hp
    simp [Writer.Write] at h
  obtain ⟨m, hm⟩ : ∃ m, p.length = m + 1 :=
    Nat.exists_eq_succ_of_ne_zero (fun h => hp (List.length_eq_zero.mp h))
  obtain ⟨_, _, fevs, t1, _⟩ := Writer.Write_trace (New S pfx sfx) ⟨s0, []⟩ p hp rfl
  obtain ⟨rest, r1, r2, r3⟩ := Writer.loop_head_first m S (getFlush S) pfx (sfx ++ [nl]) 0
    ⟨s0, []⟩ p 0 (by omega)
  have t2 : ((New S pfx sfx).Write ⟨s0, []⟩ p).world.trace =
      Event.write pfx (sinkWrite S ⟨s0, []⟩ pfx).nn (sinkWrite S ⟨s0, []⟩ pfx).err ::
        (rest ++ fevs) := by
    rw [t1, hm]
    show (Writer.loop (m + 1) ⟨S, getFlush S, pfx, sfx ++ [nl], true, 0⟩ ⟨s0, []⟩ p 0).world.trace
      ++ fevs = _
    rw [r1]
    simp
  rw [t2] at h
  simp only [List.take_succ_cons, List.cons.injEq, Event.write.injEq, true_and] at h
  obtain ⟨⟨h0n, h0e⟩, h'⟩ := h
  obtain ⟨rest2, hr2⟩ := r3 h0e
  rw [hr2] at h'
  simp only [List.cons_append, List.take_succ_cons, List.cons.injEq, Event.write.injEq,
    true_and] at h'
  obtain ⟨⟨h1n, h1e⟩, _⟩ := h'
  obtain ⟨q1, q2, q3⟩ := New_payload_failure S pfx sfx p s0 e hp h0e h1e
  rw [h1n] at q1 q3
  rw [h0n] at q3
  refine ⟨q1, q2, q3, ?_⟩
  rw [q3]
  simp [received, firstPayload_take p N hN]

/-- C8 at the test of `writer_test.go`: prefix `"123"`, input `"ABCDEFG"`, `limitWriter` with
limit 5, so `N = 2`. -/
theorem C8_payload_failure_witness :
    ((New limitWriter [49, 50, 51] [49, 50, 51, 52, 53, 54, 55, 56, 57, 48]).Write ⟨5, []⟩
        [65, 66, 67, 68, 69, 70, 71]).n = ((2 : Nat) : Int) ∧
      ((New limitWriter [49, 50, 51] [49, 50, 51, 52, 53, 54, 55, 56, 57, 48]).Write ⟨5, []⟩
        [65, 66, 67, 68, 69, 70, 71]).err = some "limitWriter" ∧
      ((New limitWriter [49, 50, 51] [49, 50, 51, 52, 53, 54, 55, 56, 57, 48]).Write ⟨5, []⟩
        [65, 66, 67, 68, 69, 70, 71]).world.trace =
        [Event.write [49, 50, 51] (([49, 50, 51] : Bytes).length : Int) none,
          Event.write (firstPayload [65, 66, 67, 68, 69, 70, 71]) ((2 : Nat) : Int)
            (some "limitWriter")] ∧
      received ((New limitWriter [49, 50, 51]
        [49, 50, 51, 52, 53, 54, 55, 56, 57, 48]).Write ⟨5, []⟩
        [65, 66, 67, 68, 69, 70, 71]).world.trace =
        [49, 50, 51] ++ ([65, 66, 67, 68, 69, 70, 71] : Bytes).take 2 :=
  C8_payload_failure limitWriter [49, 50, 51] [49, 50, 51, 52, 53, 54, 55, 56, 57, 48]
    [65, 66, 67, 68, 69, 70, 71] 5 2 "limitWriter" (by decide) (by decide)

/-- C9 (failure during suffix+terminator emission): for a Writer at a line start and an
input `p` whose first `'\n'` is at offset `i`, if the sink accepts the prefix and the payload
`p[0..i)` in full and then reports an error on the suffix+terminator write, whatever count
`k` it accepted of it, `Write(p)` returns `(i + 1, that error)`. -/
theorem C9_suffix_failure (w : Writer σ ε) (world : World σ ε) (p : Bytes) (i : Nat)
    (s1 s2 s3 : σ) (k : Int) (e : ε) (hh : w.head = true) (hidx : indexByte p nl = some i)
    (h1 : w.w.Write world.sink w.pfx = (((w.pfx.length : Int), none), s1))
    (h2 : w.w.Write s1 (p.take i) = (((i : Int), none), s2))
    (h3 : w.w.Write s2 w.sfx = ((k, some e), s3)) :
    (w.Write world p).n = i + 1 ∧ (w.Write world p).err = some e := by
  obtain ⟨hi1, _, _⟩ := indexByte_some hidx
  have hp : p ≠ [] := fun hp => by subst hp; simp at hi1
  obtain ⟨m, hm⟩ : ∃ m, p.length = m + 1 :=
    Nat.exists_eq_succ_of_ne_zero (fun h => hp (List.length_eq_zero.mp h))
  obtain ⟨S, fl, pfx, sfx, head, written⟩ := w
  simp only at hh h1 h2 h3
  subst hh
  have hloop := Writer.loop_head m S fl pfx sfx written world p 0 (by omega)
  rw [Writer.loop_body m S fl pfx sfx _ _ p 0 (by omega), hidx] at hloop
  simp only [sinkWrite, h1, h2, h3] at hloop
  simp only [Writer.Write, hm, hloop]
  simp

/-- C9 at the test of `writer_test.go`: prefix `"123"`, suffix `"1234567890"`, input
`"ABCD\nFGHI\n"`, `limitWriter` with limit 10: the count is 5. -/
theorem C9_suffix_failure_witness :
    ((New limitWriter [49, 50, 51] [49, 50, 51, 52, 53, 54, 55, 56, 57, 48]).Write ⟨10, []⟩
        [65, 66, 67, 68, 10, 70, 71, 72, 73, 10]).n = ((4 : Nat) : Int) + 1 ∧
      ((New limitWriter [49, 50, 51] [49, 50, 51, 52, 53, 54, 55, 56, 57, 48]).Write ⟨10, []⟩
        [65, 66, 67, 68, 10, 70, 71, 72, 73, 10]).err = some "limitWriter" :=
  C9_suffix_failure (New limitWriter [49, 50, 51] [49, 50, 51, 52, 53, 54, 55, 56, 57, 48])
    ⟨10, []⟩ [65, 66, 67, 68, 10, 70, 71, 72, 73, 10] 4 7 3 0 3 "limitWriter"
    (by decide) (by decide) (by decide) (by decide) (by decide)

/-- C10 (bound on the returned count): for every Writer state and input `p`, over a sink
every write call of which returns a count between 0 and the length of the chunk it was
given, with or without an error, the count `n` returned by `Write(p)` satisfies
`0 ≤ n ≤ len(p)`. -/
theorem C10_count_bound (w : Writer σ ε) (world : World σ ε) (p : Bytes) (Inv : σ → Prop)
    (hS : CountsInRange w.w Inv) (h0 : Inv world.sink) :
    0 ≤ (w.Write world p).n ∧ (w.Write world p).n ≤ p.length := by
  have h := Writer.loop_bound p.length w world p 0 Inv hS h0
  unfold Writer.Write
  split
  · simp
  · simp only
    split
    · simpa using h
    · simpa using h

/-- C10 at `limitWriter` with limit 8, prefix `"12345"`, input `"ABCDE\nFGHIJ\n"` (a test of
`writer_test.go`): the limit stays non-negative, the count returned is 3. -/
theorem C10_count_bound_witness :
    CountsInRange (New limitWriter [49, 50, 51, 52, 53] [49, 50, 51, 52]).w (fun s => 0 ≤ s) ∧
    (0 ≤ ((New limitWriter [49, 50, 51, 52, 53] [49, 50, 51, 52]).Write ⟨8, []⟩
        [65, 66, 67, 68, 69, 10, 70, 71, 72, 73, 74, 10]).n ∧
      ((New limitWriter [49, 50, 51, 52, 53] [49, 50, 51, 52]).Write ⟨8, []⟩
        [65, 66, 67, 68, 69, 10, 70, 71, 72, 73, 74, 10]).n ≤
        (([65, 66, 67, 68, 69, 10, 70, 71, 72, 73, 74, 10] : Bytes).length : Int)) ∧
    ((New limitWriter [49, 50, 51, 52, 53] [49, 50, 51, 52]).Write ⟨8, []⟩
        [65, 66, 67, 68, 69, 10, 70, 71, 72, 73, 74, 10]).n = 3 :=
  have hS : CountsInRange (New limitWriter [49, 50, 51, 52, 53] [49, 50, 51, 52]).w
      (fun s => 0 ≤ s) := by
    intro s c hs
    simp only [New, limitWriter]
    split
    · exact ⟨le_refl _, hs, by simp only; omega⟩
    · exact ⟨by simp only; omega, by simp only; omega, le_refl _⟩
  ⟨hS, C10_count_bound (New limitWriter [49, 50, 51, 52, 53] [49, 50, 51, 52]) ⟨8, []⟩
    [65, 66, 67, 68, 69, 10, 70, 71, 72, 73, 74, 10] (fun s => 0 ≤ s) hS (by decide),
    by decide⟩

/-! ## The kinded history of the loop -/

theorem Writer.kinds_nil (fuel : Nat) (w : Writer σ ε) (world : World σ ε) :
    w.kinds fuel world [] = [] := by
  cases fuel <;> simp [Writer.kinds]

theorem Writer.kinds_head (fuel : Nat) (S : Sink σ ε) (fl : World σ ε → Option ε × World σ ε)
    (pfx sfx : Bytes) (written : Int) (world : World σ ε) (p : Bytes) (hp : 0 < p.length) :
    Writer.kinds (fuel + 1) ⟨S, fl, pfx, sfx, true, written⟩ world p =
      match (sinkWrite S world pfx).err with
      | some _ => [Kind.pre]
      | none => Kind.pre :: Writer.kinds (fuel + 1)
          ⟨S, fl, pfx, sfx, false, written + (sinkWrite S world pfx).nn⟩
          (sinkWrite S world pfx).world p := by
  simp only [Writer.kinds, hp, if_true, gt_iff_lt]
  cases (sinkWrite S world pfx).err with
  | some e => rfl
  | none =>
    simp only [Bool.false_eq_true, if_false]
    cases indexByte p nl with
    | none => rfl
    | some i =>
      simp only
      cases (sinkWrite S (sinkWrite S world pfx).world (List.take i p)).err with
      | some e => rfl
      | none =>
        simp only
        cases (sinkWrite S (sinkWrite S (sinkWrite S world pfx).world (List.take i p)).world
          sfx).err with
        | some e => rfl
        | none => simp

theorem Writer.kinds_body (fuel : Nat) (S : Sink σ ε) (fl : World σ ε → Option ε × World σ ε)
    (pfx sfx : Bytes) (written : Int) (world : World σ ε) (p : Bytes) (hp : 0 < p.length) :
    Writer.kinds (fuel + 1) ⟨S, fl, pfx, sfx, false, written⟩ world p =
      match indexByte p nl with
      | none => [Kind.payload]
      | some i =>
        match (sinkWrite S world (p.take i)).err with
        | some _ => [Kind.payload]
        | none =>
          match (sinkWrite S (sinkWrite S world (p.take i)).world sfx).err with
          | some _ => [Kind.payload, Kind.suf]
          | none => Kind.payload :: Kind.suf :: Writer.kinds fuel
              ⟨S, fl, pfx, sfx, true, written + (sinkWrite S world (p.take i)).nn +
                (sinkWrite S (sinkWrite S world (p.take i)).world sfx).nn⟩
              (sinkWrite S (sinkWrite S world (p.take i)).world sfx).world (p.drop (i + 1)) := by
  simp only [Writer.kinds, hp, if_true, gt_iff_lt, Bool.false_eq_true, if_false,
    List.nil_append, List.cons_append]

theorem lineStart_payload (h : Bool) (err : Option ε) (es : List (Kind × Option ε)) :
    lineStart h ((Kind.payload, err) :: es) = lineStart h es := by
  cases err <;> rfl

theorem lineStart_failed (h : Bool) (k : Kind) (e : ε) (es : List (Kind × Option ε)) :
    lineStart h ((k, some e) :: es) = lineStart h es := by
  cases k <;> rfl

theorem lineStart_pre (h : Bool) (es : List (Kind × Option ε)) :
    lineStart h ((Kind.pre, none) :: es) = lineStart false es := rfl

theorem lineStart_suf (h : Bool) (es : List (Kind × Option ε)) :
    lineStart h ((Kind.suf, none) :: es) = lineStart true es := rfl

/-- The history of one run of the loop: the sink calls appended to the trace are writes,
one per kind of `Writer.kinds` and handed the chunk of that kind; `written` grows by the
counts they returned; only the last of them can have returned an error, which is then the
error of the loop; and `head` follows the history of prefix and suffix writes that returned
`nil`. -/
theorem Writer.loop_history (fuel : Nat) (w : Writer σ ε) (world : World σ ε) (p : Bytes)
    (n : Int) :
    ∃ evs : List (Event ε), (w.loop fuel world p n).world.trace = world.trace ++ evs ∧
      flushCount evs = 0 ∧
      (w.loop fuel world p n).writer.written = w.written + accepted evs ∧
      (∃ k : Nat, writeErrs evs =
        List.replicate k none ++ (w.loop fuel world p n).err.toList.map some) ∧
      List.Forall₂ (Kind.fits w.pfx w.sfx) (w.kinds fuel world p) (chunks evs) ∧
      (writeErrs evs).length = (w.kinds fuel world p).length ∧
      (w.loop fuel world p n).writer.head =
        lineStart w.head ((w.kinds fuel world p).zip (writeErrs evs)) := by
  induction fuel generalizing w world p n with
  | zero =>
    exact ⟨[], by simp [Writer.loop], rfl, by simp [Writer.loop, accepted],
      ⟨0, by simp [Writer.loop, writeErrs]⟩, by simp [Writer.kinds, chunks],
      by simp [Writer.kinds, writeErrs], by simp [Writer.loop, Writer.kinds, lineStart]⟩
  | succ fuel ih =>
    by_cases hp : p = []
    · subst hp
      exact ⟨[], by simp [Writer.loop_nil], rfl, by simp [Writer.loop_nil, accepted],
        ⟨0, by simp [Writer.loop_nil, writeErrs]⟩, by simp [Writer.kinds_nil, chunks],
        by simp [Writer.kinds_nil, writeErrs],
        by simp [Writer.loop_nil, Writer.kinds_nil, lineStart]⟩
    have hlen : 0 < p.length := List.length_pos.mpr hp
    obtain ⟨S, fl, pfx, sfx, head, written⟩ := w
    have hbody : ∀ (written : Int) (world : World σ ε),
        ∃ evs : List (Event ε),
          (Writer.loop (fuel + 1) ⟨S, fl, pfx, sfx, false, written⟩ world p n).world.trace =
            world.trace ++ evs ∧
          flushCount evs = 0 ∧
          (Writer.loop (fuel + 1) ⟨S, fl, pfx, sfx, false, written⟩ world p n).writer.written =
            written + accepted evs ∧
          (∃ k : Nat, writeErrs evs = List.replicate k none ++
            (Writer.loop (fuel + 1) ⟨S, fl, pfx, sfx, false, written⟩ world p
              n).err.toList.map some) ∧
          List.Forall₂ (Kind.fits pfx sfx)
            (Writer.kinds (fuel + 1) ⟨S, fl, pfx, sfx, false, written⟩ world p) (chunks evs) ∧
          (writeErrs evs).length =
            (Writer.kinds (fuel + 1) ⟨S, fl, pfx, sfx, false, written⟩ world p).length ∧
          (Writer.loop (fuel + 1) ⟨S, fl, pfx, sfx, false, written⟩ world p n).writer.head =
            lineStart false ((Writer.kinds (fuel + 1) ⟨S, fl, pfx, sfx, false, written⟩
              world p).zip (writeErrs evs)) := by
      intro written world
      rw [Writer.loop_body fuel S fl pfx sfx written world p n hlen,
        Writer.kinds_body fuel S fl pfx sfx written world p hlen]
      cases hidx : indexByte p nl with
      | none =>
        refine ⟨[Event.write p (sinkWrite S world p).nn (sinkWrite S world p).err],
          sinkWrite_trace _ _ _, rfl, by simp [accepted], ?_, ?_, rfl, ?_⟩
        · cases h : (sinkWrite S world p).err with
          | none => exact ⟨1, by simp [writeErrs]⟩
          | some e => exact ⟨0, by simp [writeErrs]⟩
        · simp only [chunks]
          exact List.Forall₂.cons (indexByte_none hidx) List.Forall₂.nil
        · simp [writeErrs, lineStart_payload, lineStart]
      | some i =>
        obtain ⟨_, _, hnl⟩ := indexByte_some hidx
        simp only
        cases he : (sinkWrite S world (p.take i)).err with
        | some e =>
          refine ⟨[Event.write (p.take i) (sinkWrite S world (p.take i)).nn (some e)],
            by simp only; rw [sinkWrite_trace, he], rfl, by simp [accepted],
            ⟨0, by simp [writeErrs]⟩, ?_, rfl, ?_⟩
          · simp only [chunks]
            exact List.Forall₂.cons hnl List.Forall₂.nil
          · simp [writeErrs, lineStart_payload, lineStart]
        | none =>
          simp only
          cases he2 : (sinkWrite S (sinkWrite S world (p.take i)).world sfx).err with
          | some e2 =>
            refine ⟨[Event.write (p.take i) (sinkWrite S world (p.take i)).nn none,
              Event.write sfx (sinkWrite S (sinkWrite S world (p.take i)).world sfx).nn
                (some e2)], ?_, rfl, by simp [accepted]; omega,
              ⟨1, by simp [writeErrs]⟩, ?_, rfl, ?_⟩
            · simp only; rw [sinkWrite_trace, sinkWrite_trace, he, he2]; simp
            · simp only [chunks]
              exact List.Forall₂.cons hnl (List.Forall₂.cons rfl List.Forall₂.nil)
            · simp [writeErrs, lineStart_payload, lineStart_failed, lineStart]
          | none =>
            obtain ⟨evs, h1, h2, h3, ⟨k, h4⟩, h5, h6, h7⟩ := ih
              ⟨S, fl, pfx, sfx, true, written + (sinkWrite S world (p.take i)).nn +
                (sinkWrite S (sinkWrite S world (p.take i)).world sfx).nn⟩
              (sinkWrite S (sinkWrite S world (p.take i)).world sfx).world (p.drop (i + 1))
              (n + (sinkWrite S world (p.take i)).nn + 1)
            refine ⟨Event.write (p.take i) (sinkWrite S world (p.take i)).nn none ::
              Event.write sfx (sinkWrite S (sinkWrite S world (p.take i)).world sfx).nn none ::
              evs, ?_, ?_, ?_, ⟨k + 2, ?_⟩, ?_, ?_, ?_⟩
            · simp only; rw [h1, sinkWrite_trace, sinkWrite_trace, he, he2]; simp
            · simpa [flushCount] using h2
            · simp only at h3 ⊢
              rw [h3]; simp [accepted]; omega
            · simp only [writeErrs, h4, List.replicate_succ, List.cons_append]
            · simp only [chunks]
              exact List.Forall₂.cons hnl (List.Forall₂.cons rfl h5)
            · simp [writeErrs, h6]
            · simp only at h7 ⊢
              rw [h7]
              simp [writeErrs, lineStart_payload, lineStart_suf]
    cases head
    · exact hbody written world
    · rw [Writer.loop_head fuel S fl pfx sfx written world p n hlen,
        Writer.kinds_head fuel S fl pfx sfx written world p hlen]
      cases he : (sinkWrite S world pfx).err with
      | some e =>
        exact ⟨[Event.write pfx (sinkWrite S world pfx).nn (some e)],
          by simp only; rw [sinkWrite_trace, he], rfl, by simp [accepted],
          ⟨0, by simp [writeErrs]⟩, by
            simp only [chunks]
            exact List.Forall₂.cons rfl List.Forall₂.nil, rfl,
          by simp [writeErrs, lineStart_failed, lineStart]⟩
      | none =>
        obtain ⟨evs, h1, h2, h3, ⟨k, h4⟩, h5, h6, h7⟩ :=
          hbody (written + (sinkWrite S world pfx).nn) (sinkWrite S world pfx).world
        refine ⟨Event.write pfx (sinkWrite S world pfx).nn none :: evs, ?_, ?_, ?_,
          ⟨k + 1, ?_⟩, ?_, ?_, ?_⟩
        · simp only; rw [h1, sinkWrite_trace, he]; simp
        · simpa [flushCount] using h2
        · simp only at h3 ⊢
          rw [h3]; simp [accepted]; omega
        · simp only [writeErrs, h4, List.replicate_succ, List.cons_append]
        · simp only [chunks]
          exact List.Forall₂.cons rfl h5
        · simp [writeErrs, h6]
        · simp only at h7 ⊢
          rw [h7]
          simp [writeErrs, lineStart_pre]

/-! ## The loop over a sink that accepts everything from some state on -/

theorem sinkWrite_accepts_from {S : Sink σ ε} {Inv : σ → Prop} (hS : AcceptsAllFrom S Inv)
    (world : World σ ε) (c : Bytes) (h : Inv world.sink) :
    (sinkWrite S world c).nn = c.length ∧ (sinkWrite S world c).err = none ∧
      (sinkWrite S world c).world.trace = world.trace ++ [Event.write c c.length none] ∧
      Inv (sinkWrite S world c).world.sink := by
  obtain ⟨h1, h2⟩ := hS world.sink c h
  have h3 : (S.Write world.sink c).1.1 = (c.length : Int) := by rw [h2]
  have h4 : (S.Write world.sink c).1.2 = none := by rw [h2]
  exact ⟨h3, h4, by simp [sinkWrite, h3, h4], h1⟩

theorem Writer.loop_accepts_from (fuel : Nat) (w : Writer σ ε) (world : World σ ε) (p : Bytes)
    (n : Int) (Inv : σ → Prop) (hS : AcceptsAllFrom w.w Inv) (h0 : Inv world.sink)
    (hf : p.length ≤ fuel) :
    (w.loop fuel world p n).n = n + p.length ∧
    (w.loop fuel world p n).err = none ∧
    (w.loop fuel world p n).writer =
      { w with head := headAfter w.head p,
               written := w.written + (emit w.pfx w.sfx w.head p).length } ∧
    received (w.loop fuel world p n).world.trace =
      received world.trace ++ emit w.pfx w.sfx w.head p ∧
    Inv (w.loop fuel world p n).world.sink := by
  induction fuel generalizing w world p n with
  | zero =>
    have hp : p = [] := List.length_eq_zero.mp (by omega)
    subst hp
    simp [Writer.loop, emit, headAfter, h0]
  | succ fuel ih =>
    by_cases hp : p = []
    · subst hp
      simp [Writer.loop_nil, emit, headAfter, h0]
    have hlen : 0 < p.length := List.length_pos.mpr hp
    obtain ⟨S, fl, pfx, sfx, head, written⟩ := w
    simp only at hS
    have hbody : ∀ (written : Int) (world : World σ ε), Inv world.sink →
        (Writer.loop (fuel + 1) ⟨S, fl, pfx, sfx, false, written⟩ world p n).n = n + p.length ∧
        (Writer.loop (fuel + 1) ⟨S, fl, pfx, sfx, false, written⟩ world p n).err = none ∧
        (Writer.loop (fuel + 1) ⟨S, fl, pfx, sfx, false, written⟩ world p n).writer =
          ⟨S, fl, pfx, sfx, headAfter false p, written + (emit pfx sfx false p).length⟩ ∧
        received (Writer.loop (fuel + 1) ⟨S, fl, pfx, sfx, false, written⟩ world p
          n).world.trace = received world.trace ++ emit pfx sfx false p ∧
        Inv (Writer.loop (fuel + 1) ⟨S, fl, pfx, sfx, false, written⟩ world p
          n).world.sink := by
      intro written world hw
      rw [Writer.loop_body fuel S fl pfx sfx written world p n hlen]
      cases hidx : indexByte p nl with
      | none =>
        obtain ⟨a1, a2, a3, a4⟩ := sinkWrite_accepts_from hS world p hw
        have he := emit_of_index_none pfx sfx false hp hidx
        have hh := headAfter_of_index_none false hp hidx
        simp only [a1, a2, a3, he, hh, received_append, received]
        simp [a4]
      | some i =>
        obtain ⟨hi1, _, _⟩ := indexByte_some hidx
        obtain ⟨a1, a2, a3, a4⟩ := sinkWrite_accepts_from hS world (p.take i) hw
        obtain ⟨b1, b2, b3, b4⟩ :=
          sinkWrite_accepts_from hS (sinkWrite S world (p.take i)).world sfx a4
        have he := emit_of_index_some pfx sfx false hidx
        have hh := headAfter_of_index_some false hidx
        have hdrop : (p.drop (i + 1)).length ≤ fuel := by rw [List.length_drop]; omega
        have hmin : min i p.length = i := by omega
        simp only [a2, b2]
        obtain ⟨h1, h2, h3, h4, h5⟩ := ih
          ⟨S, fl, pfx, sfx, true, written + (sinkWrite S world (p.take i)).nn +
            (sinkWrite S (sinkWrite S world (p.take i)).world sfx).nn⟩
          (sinkWrite S (sinkWrite S world (p.take i)).world sfx).world (p.drop (i + 1))
          (n + (sinkWrite S world (p.take i)).nn + 1) hS b4 hdrop
        refine ⟨?_, h2, ?_, ?_, h5⟩
        · rw [h1, a1]; simp [List.length_drop, hmin]; omega
        · rw [h3, he, hh, a1, b1]; simp [hmin, List.length_drop]; omega
        · rw [h4, he, b3, a3]
          simp [received_append, received]
          exact Or.inl hi1.le
    cases head
    · exact hbody written world h0
    · rw [Writer.loop_head fuel S fl pfx sfx written world p n hlen]
      obtain ⟨a1, a2, a3, a4⟩ := sinkWrite_accepts_from hS world pfx h0
      simp only [a2]
      obtain ⟨h1, h2, h3, h4, h5⟩ := hbody (written + (sinkWrite S world pfx).nn)
        (sinkWrite S world pfx).world a4
      have hE : emit pfx sfx true p = pfx ++ emit pfx sfx false p := by
        cases p with
        | nil => exact absurd rfl hp
        | cons b bs => simp [emit]
      have hH : headAfter true p = headAfter false p := by
        cases p with
        | nil => exact absurd rfl hp
        | cons b bs => simp [headAfter]
      refine ⟨h1, h2, ?_, ?_, h5⟩
      · rw [h3, hE, hH, a1]; simp; omega
      · rw [h4, hE, a3]; simp [received_append, received]

/-! ## The history of a `Write` -/

theorem accepted_append (a b : List (Event ε)) : accepted (a ++ b) = accepted a + accepted b := by
  induction a with
  | nil => simp [accepted]
  | cons x xs ih =>
    cases x
    · simp [accepted, ih]; omega
    · simp [accepted, ih]

theorem writeErrs_append (a b : List (Event ε)) :
    writeErrs (a ++ b) = writeErrs a ++ writeErrs b := by
  induction a with
  | nil => rfl
  | cons x xs ih => cases x <;> simp [writeErrs, ih]

theorem chunks_append (a b : List (Event ε)) : chunks (a ++ b) = chunks a ++ chunks b := by
  induction a with
  | nil => rfl
  | cons x xs ih => cases x <;> simp [chunks, ih]

theorem flushes_only (evs : List (Event ε)) (h : chunks evs = []) :
    accepted evs = 0 ∧ writeErrs evs = [] := by
  induction evs with
  | nil => exact ⟨rfl, rfl⟩
  | cons x xs ih =>
    cases x with
    | write c nn err => simp [chunks] at h
    | flush err => simpa [accepted, writeErrs] using ih (by simpa [chunks] using h)

theorem writes_only_nil (evs : List (Event ε)) (h1 : flushCount evs = 0)
    (h2 : writeErrs evs = []) : evs = [] := by
  cases evs with
  | nil => rfl
  | cons x xs =>
    cases x with
    | write c nn err => simp [writeErrs] at h2
    | flush err => simp [flushCount] at h1

/-- In a list of errors made of `nil`s followed by at most one error, an error is the last
item. -/
theorem errs_last (k : Nat) (o : Option ε) (A B : List (Option ε)) (e : ε)
    (h : List.replicate k none ++ o.toList.map some = A ++ some e :: B) :
    B = [] ∧ o = some e := by
  have hmem : (some e : Option ε) ∈ List.replicate k none ++ o.toList.map some := by
    rw [h]; simp
  have hnot : (some e : Option ε) ∉ List.replicate k (none : Option ε) := by
    intro hc
    have := List.eq_of_mem_replicate hc
    simp at this
  cases o with
  | none => simp at hmem
  | some e' =>
    simp only [Option.toList_some, List.map_cons, List.map_nil] at h hmem
    rcases List.append_eq_append_iff.mp h with ⟨a', ha, hb⟩ | ⟨c', ha, hb⟩
    · cases a' with
      | nil =>
        simp only [List.nil_append, List.cons.injEq, Option.some.injEq] at hb
        exact ⟨hb.2.symm, by rw [hb.1]⟩
      | cons x xs =>
        have := congrArg List.length hb
        simp at this
    · cases c' with
      | nil =>
        simp only [List.nil_append, List.cons.injEq, Option.some.injEq] at hb
        exact ⟨hb.2, by rw [hb.1]⟩
      | cons x xs =>
        simp only [List.cons_append, List.cons.injEq] at hb
        exfalso
        apply hnot
        rw [ha, hb.1]
        simp

/-- The history of one call of `Write`: the sink calls it makes are the writes of the loop,
then at most a flush; see `Writer.loop_history`. -/
theorem Writer.Write_history (w : Writer σ ε) (world : World σ ε) (p : Bytes)
    (hfl : w.flush = getFlush w.w) :
    (w.Write world p).world.trace = world.trace ++ w.callEvents world p ∧
    (w.Write world p).writer.written = w.written + accepted (w.callEvents world p) ∧
    (∃ k : Nat, writeErrs (w.callEvents world p) =
      List.replicate k none ++ (w.loop p.length world p 0).err.toList.map some) ∧
    List.Forall₂ (Kind.fits w.pfx w.sfx) (w.WriteKinds world p)
      (chunks (w.callEvents world p)) ∧
    (writeErrs (w.callEvents world p)).length = (w.WriteKinds world p).length ∧
    (w.Write world p).writer.head =
      lineStart w.head ((w.WriteKinds world p).zip (writeErrs (w.callEvents world p))) ∧
    (∀ e : ε, (w.loop p.length world p 0).err = some e →
      flushCount (w.callEvents world p) = 0 ∧ (w.Write world p).err = some e) := by
  by_cases hp : p = []
  · subst hp
    have h0 : w.callEvents world [] = [] := by simp [Writer.callEvents, Writer.Write]
    rw [h0]
    refine ⟨by simp [Writer.Write], by simp [Writer.Write, accepted],
      ⟨0, by simp [Writer.loop_nil, writeErrs]⟩, by simp [Writer.WriteKinds, Writer.kinds, chunks],
      by simp [Writer.WriteKinds, Writer.kinds, writeErrs],
      by simp [Writer.Write, Writer.WriteKinds, Writer.kinds, lineStart], ?_⟩
    intro e he
    simp [Writer.loop_nil] at he
  · obtain ⟨_, t0, fevs, t1, t2, _, _, t5⟩ := Writer.Write_trace w world p hp hfl
    obtain ⟨levs, l1, l2, l3, ⟨k, l4⟩, l5, l6, l7⟩ := Writer.loop_history p.length w world p 0
    obtain ⟨f1, f2⟩ := flushes_only fevs t2
    have htr : (w.Write world p).world.trace = world.trace ++ (levs ++ fevs) := by
      rw [t1, l1, List.append_assoc]
    have hce := Writer.callEvents_of_trace w world p _ htr
    rw [hce]
    refine ⟨htr, ?_, ⟨k, ?_⟩, ?_, ?_, ?_, ?_⟩
    · rw [t0, l3, accepted_append, f1]; simp
    · rw [writeErrs_append, f2, l4]; simp
    · rw [chunks_append, t2]; simpa using l5
    · rw [writeErrs_append, f2]; simpa using l6
    · rw [t0, l7, writeErrs_append, f2]; simp [Writer.WriteKinds]
    · intro e he
      have hne : (w.loop p.length world p 0).err ≠ none := by rw [he]; simp
      obtain ⟨t6, t7⟩ := t5 hne
      rw [t6, t7, he]
      simpa using l2

/-! ## `Written()` over sequences of calls -/

theorem Writer.loop_written_le (fuel : Nat) (w : Writer σ ε) (world : World σ ε) (p : Bytes)
    (n : Int) (hS : ∀ (s : σ) (c : Bytes), 0 ≤ (w.w.Write s c).1.1) :
    w.written ≤ (w.loop fuel world p n).writer.written := by
  induction fuel generalizing w world p n with
  | zero => simp [Writer.loop]
  | succ fuel ih =>
    by_cases hp : p = []
    · subst hp; simp [Writer.loop_nil]
    have hlen : 0 < p.length := List.length_pos.mpr hp
    obtain ⟨S, fl, pfx, sfx, head, written⟩ := w
    simp only at hS
    have hnn : ∀ (wd : World σ ε) (c : Bytes), 0 ≤ (sinkWrite S wd c).nn :=
      fun wd c => hS wd.sink c
    have hbody : ∀ (written : Int) (world : World σ ε),
        written ≤
          (Writer.loop (fuel + 1) ⟨S, fl, pfx, sfx, false, written⟩ world p n).writer.written := by
      intro written world
      rw [Writer.loop_body fuel S fl pfx sfx written world p n hlen]
      split
      · have := hnn world p
        simp only; omega
      · rename_i i hidx
        have h1 := hnn world (p.take i)
        have h2 := hnn (sinkWrite S world (p.take i)).world sfx
        split
        · simp only; omega
        · split
          · simp only; omega
          · have := ih ⟨S, fl, pfx, sfx, true, written + (sinkWrite S world (p.take i)).nn +
                (sinkWrite S (sinkWrite S world (p.take i)).world sfx).nn⟩
              (sinkWrite S (sinkWrite S world (p.take i)).world sfx).world (p.drop (i + 1))
              (n + (sinkWrite S world (p.take i)).nn + 1) hS
            simp only at this
            omega
    cases head
    · exact hbody written world
    · rw [Writer.loop_head fuel S fl pfx sfx written world p n hlen]
      have h0 := hnn world pfx
      split
      · simp only; omega
      · have := hbody (written + (sinkWrite S world pfx).nn) (sinkWrite S world pfx).world
        simp only at this ⊢
        omega

theorem Writer.Write_written_le (w : Writer σ ε) (world : World σ ε) (p : Bytes)
    (hS : ∀ (s : σ) (c : Bytes), 0 ≤ (w.w.Write s c).1.1) :
    w.written ≤ (w.Write world p).writer.written := by
  have h := Writer.loop_written_le p.length w world p 0 hS
  unfold Writer.Write
  split
  · simp
  · simp only
    split <;> exact h

theorem Writer.call_written_le (w : Writer σ ε) (world : World σ ε) (c : Call)
    (hS : ∀ (s : σ) (c : Bytes), 0 ≤ (w.w.Write s c).1.1) :
    w.written ≤ (w.call world c).1.written ∧ (w.call world c).1.w = w.w := by
  cases c with
  | Write p => exact ⟨Writer.Write_written_le w world p hS, (Writer.Write_frame w world p).1⟩
  | Flush => exact ⟨le_refl _, rfl⟩
  | Written => exact ⟨le_refl _, rfl⟩

theorem Writer.calls_written_le (w : Writer σ ε) (world : World σ ε) (cs : List Call)
    (hS : ∀ (s : σ) (c : Bytes), 0 ≤ (w.w.Write s c).1.1) :
    w.written ≤ (w.calls world cs).1.written ∧ (w.calls world cs).1.w = w.w := by
  induction cs generalizing w world with
  | nil => exact ⟨le_refl _, rfl⟩
  | cons c cs ih =>
    obtain ⟨h1, h2⟩ := Writer.call_written_le w world c hS
    obtain ⟨h3, h4⟩ := ih (w.call world c).1 (w.call world c).2 (by rw [h2]; exact hS)
    exact ⟨le_trans h1 h3, by rw [← h2]; exact h4⟩

theorem Writer.calls_append (w : Writer σ ε) (world : World σ ε) (a b : List Call) :
    w.calls world (a ++ b) = (w.calls world a).1.calls (w.calls world a).2 b := by
  induction a generalizing w world with
  | nil => rfl
  | cons c cs ih =>
    show (w.call world c).1.calls (w.call world c).2 (cs ++ b) = _
    rw [ih]
    rfl

/-! ## Claims C12 and C16 -/

/-- C12 (`Flush()`): for every Writer state, `Flush()` returns the result of the sink's
flush, called once, when the sink has one, and `nil` without any sink call when it has
none; in both cases no sink write is made and the receiver, so `head` and `Written()`, is
unchanged. -/
theorem C12_flush (w : Writer σ ε) (world : World σ ε) (hfl : w.flush = getFlush w.w) :
    (∀ f : σ → Option ε × σ, w.w.Flush = some f →
      w.Flush world = ((f world.sink).1,
        { sink := (f world.sink).2, trace := world.trace ++ [Event.flush (f world.sink).1] })) ∧
    (w.w.Flush = none → w.Flush world = (none, world)) ∧
    chunks (w.Flush world).2.trace = chunks world.trace ∧
    (w.call world Call.Flush).1 = w := by
  refine ⟨fun f hf => ?_, fun hf => ?_, ?_, rfl⟩
  · simp [Writer.Flush, hfl, getFlush, hf]
  · simp [Writer.Flush, hfl, getFlush, hf, nop]
  · obtain ⟨evs, e1, _, e3, _⟩ := getFlush_spec w.w world
    simp only [Writer.Flush, hfl]
    rw [e1, chunks_append, e3]
    simp

/-- C12 over `flushFails`: `Flush()` returns the error of the sink's flush. -/
theorem C12_flush_witness :
    (New flushFails [] []).flush = getFlush (New flushFails [] []).w ∧
    ((New flushFails [] []).Flush ⟨(), []⟩).1 = some "flush" :=
  ⟨rfl, by
    have h := (C12_flush (New flushFails [] []) ⟨(), []⟩ rfl).1
      (fun s => (some "flush", s)) rfl
    rw [h]⟩

/-- C16 (fail fast): for every Writer state, input and sink, a sink write of `Write(p)` that
returns an error is the last sink call of that `Write` (no further write, and no flush),
and `Write(p)` returns exactly that error. -/
theorem C16_fail_fast (w : Writer σ ε) (world : World σ ε) (p : Bytes)
    (hfl : w.flush = getFlush w.w) (pre post : List (Event ε)) (c : Bytes) (nn : Int) (e : ε)
    (h : w.callEvents world p = pre ++ Event.write c nn (some e) :: post) :
    post = [] ∧ (w.Write world p).err = some e := by
  obtain ⟨_, _, ⟨k, h3⟩, _, _, _, h7⟩ := Writer.Write_history w world p hfl
  rw [h, writeErrs_append] at h3
  simp only [writeErrs] at h3
  obtain ⟨hB, ho⟩ := errs_last k _ _ _ e h3.symm
  obtain ⟨hf, herr⟩ := h7 e ho
  rw [h, flushCount_append] at hf
  simp only [flushCount] at hf
  exact ⟨writes_only_nil post (by omega) hB, herr⟩

/-- C16 at a test of `writer_test.go` (`limitWriter` with limit 10, input `"ABCD\nFGHI\n"`):
the suffix write fails and is the last sink call. -/
theorem C16_fail_fast_witness :
    (New limitWriter [49, 50, 51] [49, 50, 51, 52, 53, 54, 55, 56, 57, 48]).callEvents
        ⟨10, []⟩ [65, 66, 67, 68, 10, 70, 71, 72, 73, 10] =
      [Event.write [49, 50, 51] 3 none, Event.write [65, 66, 67, 68] 4 none] ++
        Event.write [49, 50, 51, 52, 53, 54, 55, 56, 57, 48, 10] 3 (some "limitWriter") ::
          [] ∧
    (([] : List (Event String)) = [] ∧
      ((New limitWriter [49, 50, 51] [49, 50, 51, 52, 53, 54, 55, 56, 57, 48]).Write
        ⟨10, []⟩ [65, 66, 67, 68, 10, 70, 71, 72, 73, 10]).err = some "limitWriter") :=
  ⟨by decide,
    C16_fail_fast (New limitWriter [49, 50, 51] [49, 50, 51, 52, 53, 54, 55, 56, 57, 48])
      ⟨10, []⟩ [65, 66, 67, 68, 10, 70, 71, 72, 73, 10] rfl
      [Event.write [49, 50, 51] 3 none, Event.write [65, 66, 67, 68] 4 none] []
      [49, 50, 51, 52, 53, 54, 55, 56, 57, 48, 10] 3 "limitWriter" (by decide)⟩

/-! ## The line-start flag and the history -/

theorem lineStart_other (h : Bool) (x : Kind × Option ε) (es : List (Kind × Option ε))
    (h1 : x ≠ (Kind.pre, none)) (h2 : x ≠ (Kind.suf, none)) :
    lineStart h (x :: es) = lineStart h es := by
  obtain ⟨k, err⟩ := x
  cases k <;> cases err <;> first | rfl | exact absurd rfl h1 | exact absurd rfl h2

/-- The flag read off a history is false exactly when some prefix write returned `nil` and
no suffix write returned `nil` after it (or the flag was false at the start and no suffix
write returned `nil` at all). -/
theorem lineStart_false_iff (h : Bool) (hist : List (Kind × Option ε)) :
    lineStart h hist = false ↔
      (h = false ∧ (Kind.suf, none) ∉ hist) ∨
      ∃ a b : List (Kind × Option ε), hist = a ++ (Kind.pre, none) :: b ∧
        (Kind.suf, none) ∉ b := by
  induction hist generalizing h with
  | nil => simp [lineStart]
  | cons x es ih =>
    by_cases h1 : x = (Kind.pre, none)
    · subst h1
      rw [lineStart_pre, ih]
      constructor
      · rintro (⟨_, hs⟩ | ⟨a, b, hab, hs⟩)
        · exact Or.inr ⟨[], es, rfl, hs⟩
        · exact Or.inr ⟨(Kind.pre, none) :: a, b, by rw [hab]; rfl, hs⟩
      · rintro (⟨_, hs⟩ | ⟨a, b, hab, hs⟩)
        · exact Or.inl ⟨rfl, fun hc => hs (List.mem_cons_of_mem _ hc)⟩
        · cases a with
          | nil =>
            simp only [List.nil_append, List.cons.injEq, true_and] at hab
            subst hab
            exact Or.inl ⟨rfl, hs⟩
          | cons y ys =>
            simp only [List.cons_append, List.cons.injEq] at hab
            exact Or.inr ⟨ys, b, hab.2, hs⟩
    · by_cases h2 : x = (Kind.suf, none)
      · subst h2
        rw [lineStart_suf, ih]
        constructor
        · rintro (⟨hc, _⟩ | ⟨a, b, hab, hs⟩)
          · exact absurd hc (by simp)
          · exact Or.inr ⟨(Kind.suf, none) :: a, b, by rw [hab]; rfl, hs⟩
        · rintro (⟨_, hs⟩ | ⟨a, b, hab, hs⟩)
          · exact absurd (List.mem_cons_self _ _) hs
          · cases a with
            | nil =>
              simp only [List.nil_append, List.cons.injEq, Prod.mk.injEq] at hab
              exact absurd hab.1.1 (by decide)
            | cons y ys =>
              simp only [List.cons_append, List.cons.injEq] at hab
              exact Or.inr ⟨ys, b, hab.2, hs⟩
      · rw [lineStart_other h x es h1 h2, ih]
        constructor
        · rintro (⟨hh, hs⟩ | ⟨a, b, hab, hs⟩)
          · refine Or.inl ⟨hh, fun hc => ?_⟩
            rcases List.mem_cons.mp hc with hc | hc
            · exact h2 hc.symm
            · exact hs hc
          · exact Or.inr ⟨x :: a, b, by rw [hab]; rfl, hs⟩
        · rintro (⟨hh, hs⟩ | ⟨a, b, hab, hs⟩)
          · exact Or.inl ⟨hh, fun hc => hs (List.mem_cons_of_mem _ hc)⟩
          · cases a with
            | nil =>
              simp only [List.nil_append, List.cons.injEq] at hab
              exact absurd hab.1 h1
            | cons y ys =>
              simp only [List.cons_append, List.cons.injEq] at hab
              exact Or.inr ⟨ys, b, hab.2, hs⟩

theorem lineStart_append (h : Bool) (a b : List (Kind × Option ε)) :
    lineStart h (a ++ b) = lineStart (lineStart h a) b := by
  induction a generalizing h with
  | nil => rfl
  | cons x xs ih =>
    by_cases h1 : x = (Kind.pre, none)
    · subst h1; simp only [List.cons_append, lineStart_pre, ih]
    · by_cases h2 : x = (Kind.suf, none)
      · subst h2; simp only [List.cons_append, lineStart_suf, ih]
      · simp only [List.cons_append, lineStart_other _ x _ h1 h2, ih]

/-- The history of a sequence of `Write` calls. -/
theorem Writer.WriteSeq_history (w : Writer σ ε) (world : World σ ε) (ps : List Bytes)
    (hfl : w.flush = getFlush w.w) :
    ∃ evs : List (Event ε), (w.WriteSeq world ps).2.2.trace = world.trace ++ evs ∧
      List.Forall₂ (Kind.fits w.pfx w.sfx) (w.WriteSeqKinds world ps) (chunks evs) ∧
      (writeErrs evs).length = (w.WriteSeqKinds world ps).length ∧
      (w.WriteSeq world ps).2.1.head =
        lineStart w.head ((w.WriteSeqKinds world ps).zip (writeErrs evs)) := by
  induction ps generalizing w world with
  | nil => exact ⟨[], by simp [Writer.WriteSeq], by simp [Writer.WriteSeqKinds, chunks],
      by simp [Writer.WriteSeqKinds, writeErrs],
      by simp [Writer.WriteSeq, Writer.WriteSeqKinds, lineStart]⟩
  | cons p ps ih =>
    obtain ⟨h1, _, _, h4, h5, h6, _⟩ := Writer.Write_history w world p hfl
    obtain ⟨f1, f2, f3, f4⟩ := Writer.Write_frame w world p
    obtain ⟨evs, i1, i2, i3, i4⟩ := ih (w.Write world p).writer (w.Write world p).world
      (by rw [f1, f2]; exact hfl)
    rw [f3, f4] at i2
    refine ⟨w.callEvents world p ++ evs, ?_, ?_, ?_, ?_⟩
    · simp only [Writer.WriteSeq]
      rw [i1, h1, List.append_assoc]
    · simp only [Writer.WriteSeqKinds, chunks_append]
      exact List.rel_append h4 i2
    · simp only [Writer.WriteSeqKinds, writeErrs_append, List.length_append, h5, i3]
    · simp only [Writer.WriteSeq, Writer.WriteSeqKinds, writeErrs_append]
      rw [i4, h6, List.zip_append h5.symm, lineStart_append]

/-! ## Claims C14 and C18 -/

/-- C14 as stated fails: in the test of `writer_test.go` with prefix `"123456789"` over
`limitWriter` with limit 5, after `Write("ABCDEFG")` `head` is still true although the sink
has accepted 5 bytes of the prefix of the current line. -/
theorem C14_line_start_counterexample :
    ¬ (((New limitWriter [49, 50, 51, 52, 53, 54, 55, 56, 57]
          [49, 50, 51, 52, 53, 54, 55, 56, 57, 48]).WriteSeq ⟨5, []⟩
          [[65, 66, 67, 68, 69, 70, 71]]).2.1.head = true ↔
        received ((New limitWriter [49, 50, 51, 52, 53, 54, 55, 56, 57]
          [49, 50, 51, 52, 53, 54, 55, 56, 57, 48]).WriteSeq ⟨5, []⟩
          [[65, 66, 67, 68, 69, 70, 71]]).2.2.trace = []) := by
  decide

theorem headAfter_splitLines (h : Bool) (p : Bytes) (hp : p ≠ []) :
    headAfter h p = decide ((splitLines p).2 = []) := by
  induction p generalizing h with
  | nil => exact absurd rfl hp
  | cons b bs ih =>
    by_cases hbs : bs = []
    · subst hbs
      by_cases hb : b = nl <;> simp [headAfter, splitLines, hb]
    · rw [headAfter, ih _ hbs]
      by_cases hb : b = nl
      · simp [splitLines, hb]
      · simp only [splitLines, hb, if_false]
        cases hs : (splitLines bs).1 with
        | nil =>
          have h1 := (splitLines_spec bs).1
          rw [hs] at h1
          simp only [List.map_nil, List.flatten_nil, List.nil_append] at h1
          simp [h1, hbs]
        | cons l ls => simp

/-- C14 amended (line-start flag): in every state reached from `New` by any sequence of
`Write` calls against any sink, `head` is false exactly when some prefix write has returned
without error and no suffix+terminator write has returned without error after it; the
history is the sequence of the sink writes made since construction, each with its kind (the
chunk it was handed is the prefix, the suffix with terminator, or a piece of input) and the
error it returned.  Against a sink that accepts every write in full, the sink has received
the decorated terminated lines followed by the bytes of the current line (the prefix and
the unterminated rest of the input, if any), and `head` is true exactly when the latter are
zero bytes. -/
theorem C14_line_start_flag (S : Sink σ ε) (pfx sfx : Bytes) (s0 : σ) (ps : List Bytes) :
    List.Forall₂ (Kind.fits pfx (sfx ++ [nl])) ((New S pfx sfx).WriteSeqKinds ⟨s0, []⟩ ps)
      (chunks ((New S pfx sfx).WriteSeq ⟨s0, []⟩ ps).2.2.trace) ∧
    (((New S pfx sfx).WriteSeq ⟨s0, []⟩ ps).2.1.head = false ↔
      ∃ a b : List (Kind × Option ε),
        ((New S pfx sfx).WriteSeqKinds ⟨s0, []⟩ ps).zip
          (writeErrs ((New S pfx sfx).WriteSeq ⟨s0, []⟩ ps).2.2.trace) =
            a ++ (Kind.pre, none) :: b ∧
        (Kind.suf, none) ∉ b) ∧
    (AcceptsAll S →
      received ((New S pfx sfx).WriteSeq ⟨s0, []⟩ ps).2.2.trace =
        ((splitLines ps.flatten).1.map (fun L => pfx ++ L ++ sfx ++ [nl])).flatten ++
          (if (splitLines ps.flatten).2 = [] then [] else pfx ++ (splitLines ps.flatten).2) ∧
      (((New S pfx sfx).WriteSeq ⟨s0, []⟩ ps).2.1.head = true ↔
        (if (splitLines ps.flatten).2 = [] then [] else pfx ++ (splitLines ps.flatten).2) =
          [])) := by
  obtain ⟨evs, h1, h2, _, h4⟩ := Writer.WriteSeq_history (New S pfx sfx) ⟨s0, []⟩ ps rfl
  simp only [List.nil_append] at h1
  refine ⟨by rw [h1]; exact h2, ?_, fun hS => ?_⟩
  · rw [h1, h4, lineStart_false_iff]
    simp [New]
  · obtain ⟨a1, a2, _⟩ := Writer.WriteSeq_accepts (New S pfx sfx) ⟨s0, []⟩ ps hS rfl
    refine ⟨?_, ?_⟩
    · rw [a2]
      simp only [New, received, List.nil_append, emit_eq_decorate]
      rfl
    · rw [a1]
      simp only [New]
      by_cases hp : ps.flatten = []
      · rw [hp]; simp [headAfter, splitLines]
      · rw [headAfter_splitLines true _ hp]
        by_cases hr : (splitLines ps.flatten).2 = []
        · simp [hr]
        · simp [hr]

/-- C14 amended at the four calls of `Example` over `writerFlush`: the input ends in the
unterminated `"world"`, `head` is false. -/
theorem C14_line_start_flag_witness :
    AcceptsAll writerFlush ∧
    ((New writerFlush [62, 62] [60, 60]).WriteSeq ⟨0, []⟩
        [[104, 101, 108, 108, 111], [32, 119, 111, 114, 108, 100, 10],
          [104, 101, 108, 108, 111, 10], [119, 111, 114, 108, 100]]).2.1.head = false :=
  have h := (C14_line_start_flag writerFlush [62, 62] [60, 60] 0
    [[104, 101, 108, 108, 111], [32, 119, 111, 114, 108, 100, 10],
      [104, 101, 108, 108, 111, 10], [119, 111, 114, 108, 100]]).2.2 (fun _ _ => rfl)
  ⟨fun _ _ => rfl, by
    cases hh : ((New writerFlush [62, 62] [60, 60]).WriteSeq ⟨0, []⟩
        [[104, 101, 108, 108, 111], [32, 119, 111, 114, 108, 100, 10],
          [104, 101, 108, 108, 111, 10], [119, 111, 114, 108, 100]]).2.1.head with
    | false => rfl
    | true => exact absurd (h.2.mp hh) (by decide)⟩

theorem emit_length (pfx sfx : Bytes) (h : Bool) (p : Bytes) :
    (emit pfx (sfx ++ [nl]) h p).length + (if headAfter h p then pfx.length else 0) =
      p.length + p.count nl * sfx.length +
        (p.count nl * pfx.length + (if h then pfx.length else 0)) := by
  induction p generalizing h with
  | nil => simp [emit, headAfter]
  | cons b bs ih =>
    by_cases hb : b = nl
    · subst hb
      have := ih true
      simp only [emit, headAfter, if_true, List.length_append, List.length_cons,
        List.length_nil, List.count_cons_self, decide_True, Nat.add_mul, Nat.one_mul] at this ⊢
      cases h <;> simp <;> omega
    · have := ih false
      have hb2 : (b == nl) = false := by simpa using hb
      simp only [emit, headAfter, hb, if_false, List.length_append, List.length_cons,
        List.count_cons, hb2, decide_False, Bool.false_eq_true] at this ⊢
      cases h <;> simp <;> omega

/-- C18 (closed form of the overhead): on a fresh Writer over a sink that accepts every write
in full, after `Write(p)` the value of `Written()` is
`len(p) + c * len(suffix) + m * len(prefix)`, with `c` the number of `'\n'` in `p` and `m`
equal to `c`, plus 1 when `p` is not empty and does not end in `'\n'`. -/
theorem C18_overhead (S : Sink σ ε) (hS : AcceptsAll S) (pfx sfx p : Bytes) (s0 : σ) :
    ((New S pfx sfx).Write ⟨s0, []⟩ p).writer.Written =
      ((p.length + p.count nl * sfx.length +
        (p.count nl + (if p = [] ∨ p.getLast? = some nl then 0 else 1)) * pfx.length : Nat) :
        Int) := by
  have h2 := (Writer.Write_accepts (New S pfx sfx) ⟨s0, []⟩ p hS).2.1
  have hl := emit_length pfx sfx true p
  have hh : headAfter true p = decide (p = [] ∨ p.getLast? = some nl) := by
    by_cases hp : p = []
    · subst hp; simp [headAfter]
    · rw [headAfter_getLast true p hp, List.getLast?_eq_getLast _ hp]
      simp [hp]
  rw [h2]
  simp only [Writer.Written, New, zero_add]
  rw [hh] at hl
  simp only [if_true, decide_eq_true_eq] at hl
  by_cases hc : p = [] ∨ p.getLast? = some nl
  · simp only [hc, if_true] at hl ⊢
    simp only [Nat.add_zero]
    omega
  · simp only [hc, if_false] at hl ⊢
    simp only [Nat.add_mul, Nat.one_mul]
    omega

/-- C18 at a test of `writer_test.go`: prefix `"-> "`, suffix `" <-"`, input
`"Line 1\nLine 2\nLine 3"`: 20 + 2 * 3 + 3 * 3 = 35 bytes. -/
theorem C18_overhead_witness :
    AcceptsAll writerFlush ∧
    ((New writerFlush [45, 62, 32] [32, 60, 45]).Write ⟨0, []⟩
        [76, 105, 110, 101, 32, 49, 10, 76, 105, 110, 101, 32, 50, 10,
          76, 105, 110, 101, 32, 51]).writer.Written = ((20 + 2 * 3 + (2 + 1) * 3 : Nat) : Int) :=
  ⟨fun _ _ => rfl,
    C18_overhead writerFlush (fun _ _ => rfl) [45, 62, 32] [32, 60, 45]
      [76, 105, 110, 101, 32, 49, 10, 76, 105, 110, 101, 32, 50, 10,
        76, 105, 110, 101, 32, 51] 0⟩

/-! ## Resumption after a failed payload write -/

theorem emit_false_split (pfx sfx : Bytes) (a b : Bytes) (h : nl ∉ a) :
    emit pfx sfx false (a ++ b) = a ++ emit pfx sfx false b := by
  induction a with
  | nil => rfl
  | cons x xs ih =>
    simp only [List.mem_cons, not_or] at h
    have hx : x ≠ nl := fun hc => h.1 hc.symm
    simp [emit, hx, ih h.2]

theorem emit_false_drop (pfx sfx : Bytes) (p : Bytes) (m : Nat) (h : nl ∉ p.take m) :
    p.take m ++ emit pfx sfx false (p.drop m) = emit pfx sfx false p := by
  have := emit_false_split pfx sfx (p.take m) (p.drop m) h
  rw [List.take_append_drop] at this
  exact this.symm

theorem not_mem_take_of_le {p : Bytes} {i m : Nat} (h : nl ∉ p.take i) (hm : m ≤ i) :
    nl ∉ p.take m := by
  intro hc
  apply h
  have : p.take m = (p.take i).take m := by
    rw [List.take_take]; congr 1; omega
  rw [this] at hc
  exact List.mem_of_mem_take hc

theorem sinkWrite_contract {S : Sink σ ε} (hc : Contract S) (world : World σ ε) (c : Bytes) :
    0 ≤ (sinkWrite S world c).nn ∧ (sinkWrite S world c).nn ≤ (c.length : Int) ∧
      ((sinkWrite S world c).err = none → (sinkWrite S world c).nn = (c.length : Int)) :=
  hc world.sink c

theorem received_sinkWrite (S : Sink σ ε) (world : World σ ε) (c : Bytes) :
    received (sinkWrite S world c).world.trace =
      received world.trace ++ c.take (sinkWrite S world c).nn.toNat := by
  rw [sinkWrite_trace, received_append]
  simp [received]

/-- A run of the loop, over a sink honouring the count contract, that ends on a failed
payload write: it has consumed `m` bytes, `head` is false, and what the sink has received
is what a run accepted in full would have delivered, short of the output for `p[m:]`
continued inside the line. -/
theorem Writer.loop_payload_failure (fuel : Nat) (w : Writer σ ε) (world : World σ ε)
    (p : Bytes) (n : Int) (hc : Contract w.w) (hf : p.length ≤ fuel)
    (herr : (w.loop fuel world p n).err ≠ none)
    (hk : (w.kinds fuel world p).getLast? = some Kind.payload) :
    ∃ m : Nat, m ≤ p.length ∧ (w.loop fuel world p n).n = n + m ∧
      (w.loop fuel world p n).writer.head = false ∧
      received (w.loop fuel world p n).world.trace ++ emit w.pfx w.sfx false (p.drop m) =
        received world.trace ++ emit w.pfx w.sfx w.head p := by
  induction fuel generalizing w world p n with
  | zero => simp [Writer.loop] at herr
  | succ fuel ih =>
    by_cases hp : p = []
    · subst hp; simp [Writer.loop_nil] at herr
    have hlen : 0 < p.length := List.length_pos.mpr hp
    obtain ⟨S, fl, pfx, sfx, head, written⟩ := w
    simp only at hc
    have hbody : ∀ (written : Int) (world : World σ ε),
        (Writer.loop (fuel + 1) ⟨S, fl, pfx, sfx, false, written⟩ world p n).err ≠ none →
        (Writer.kinds (fuel + 1) ⟨S, fl, pfx, sfx, false, written⟩ world p).getLast? =
          some Kind.payload →
        ∃ m : Nat, m ≤ p.length ∧
          (Writer.loop (fuel + 1) ⟨S, fl, pfx, sfx, false, written⟩ world p n).n = n + m ∧
          (Writer.loop (fuel + 1) ⟨S, fl, pfx, sfx, false, written⟩ world p n).writer.head =
            false ∧
          received (Writer.loop (fuel + 1) ⟨S, fl, pfx, sfx, false, written⟩ world p
            n).world.trace ++ emit pfx sfx false (p.drop m) =
            received world.trace ++ emit pfx sfx false p := by
      intro written world
      rw [Writer.loop_body fuel S fl pfx sfx written world p n hlen,
        Writer.kinds_body fuel S fl pfx sfx written world p hlen]
      cases hidx : indexByte p nl with
      | none =>
        intro herr _
        obtain ⟨c1, c2, _⟩ := sinkWrite_contract hc world p
        have hnl := indexByte_none hidx
        refine ⟨(sinkWrite S world p).nn.toNat, by omega, by simp only; omega, rfl, ?_⟩
        simp only
        rw [received_sinkWrite, List.append_assoc,
          emit_false_drop pfx sfx p _ (fun hc => hnl (List.mem_of_mem_take hc))]
      | some i =>
        obtain ⟨hi1, _, hnl⟩ := indexByte_some hidx
        obtain ⟨c1, c2, c3⟩ := sinkWrite_contract hc world (p.take i)
        have hti : ((p.take i).length : Int) = i := by rw [List.length_take]; omega
        simp only
        cases he : (sinkWrite S world (p.take i)).err with
        | some e =>
          intro _ _
          refine ⟨(sinkWrite S world (p.take i)).nn.toNat, by omega, by simp only; omega,
            rfl, ?_⟩
          simp only
          rw [received_sinkWrite, List.append_assoc, List.take_take]
          have hmin : min (sinkWrite S world (p.take i)).nn.toNat i =
              (sinkWrite S world (p.take i)).nn.toNat := by omega
          rw [hmin, emit_false_drop pfx sfx p _ (not_mem_take_of_le hnl (by omega))]
        | none =>
          have hfull := c3 he
          obtain ⟨d1, d2, d3⟩ :=
            sinkWrite_contract hc (sinkWrite S world (p.take i)).world sfx
          simp only
          cases he2 : (sinkWrite S (sinkWrite S world (p.take i)).world sfx).err with
          | some e2 =>
            intro _ hk
            simp at hk
          | none =>
            intro herr hk
            simp only at herr hk ⊢
            have hk2 : (Writer.kinds fuel
                ⟨S, fl, pfx, sfx, true, written + (sinkWrite S world (p.take i)).nn +
                  (sinkWrite S (sinkWrite S world (p.take i)).world sfx).nn⟩
                (sinkWrite S (sinkWrite S world (p.take i)).world sfx).world
                (p.drop (i + 1))).getLast? = some Kind.payload := by
              revert hk
              cases Writer.kinds fuel
                ⟨S, fl, pfx, sfx, true, written + (sinkWrite S world (p.take i)).nn +
                  (sinkWrite S (sinkWrite S world (p.take i)).world sfx).nn⟩
                (sinkWrite S (sinkWrite S world (p.take i)).world sfx).world
                (p.drop (i + 1)) with
              | nil => simp
              | cons x xs => simp [List.getLast?_cons_cons]
            have hdrop : (p.drop (i + 1)).length ≤ fuel := by rw [List.length_drop]; omega
            obtain ⟨m, m1, m2, m3, m4⟩ := ih
              ⟨S, fl, pfx, sfx, true, written + (sinkWrite S world (p.take i)).nn +
                (sinkWrite S (sinkWrite S world (p.take i)).world sfx).nn⟩
              (sinkWrite S (sinkWrite S world (p.take i)).world sfx).world (p.drop (i + 1))
              (n + (sinkWrite S world (p.take i)).nn + 1) hc hdrop herr hk2
            rw [List.length_drop] at m1
            refine ⟨i + 1 + m, by omega, by rw [m2]; omega, m3, ?_⟩
            simp only at m4
            rw [List.drop_drop] at m4
            rw [m4, received_sinkWrite, received_sinkWrite,
              emit_of_index_some pfx sfx false hidx]
            have e1 : (sinkWrite S world (p.take i)).nn.toNat = (p.take i).length := by omega
            have e2 : (sinkWrite S (sinkWrite S world (p.take i)).world sfx).nn.toNat =
                sfx.length := by
              have := d3 he2
              omega
            rw [e1, e2]
            simp
    cases head
    · exact hbody written world herr hk
    · rw [Writer.loop_head fuel S fl pfx sfx written world p n hlen] at herr ⊢
      rw [Writer.kinds_head fuel S fl pfx sfx written world p hlen] at hk
      obtain ⟨c1, c2, c3⟩ := sinkWrite_contract hc world pfx
      cases he : (sinkWrite S world pfx).err with
      | some e =>
        rw [he] at hk
        simp at hk
      | none =>
        rw [he] at hk herr
        simp only at hk herr ⊢
        have hk2 : (Writer.kinds (fuel + 1)
            ⟨S, fl, pfx, sfx, false, written + (sinkWrite S world pfx).nn⟩
            (sinkWrite S world pfx).world p).getLast? = some Kind.payload := by
          revert hk
          cases Writer.kinds (fuel + 1)
            ⟨S, fl, pfx, sfx, false, written + (sinkWrite S world pfx).nn⟩
            (sinkWrite S world pfx).world p with
          | nil => simp
          | cons x xs => simp [List.getLast?_cons_cons]
        obtain ⟨m, m1, m2, m3, m4⟩ := hbody (written + (sinkWrite S world pfx).nn)
          (sinkWrite S world pfx).world herr hk2
        refine ⟨m, m1, m2, m3, ?_⟩
        rw [m4, received_sinkWrite]
        have e1 : (sinkWrite S world pfx).nn.toNat = pfx.length := by
          have := c3 he
          omega
        have hE : emit pfx sfx true p = pfx ++ emit pfx sfx false p := by
          cases p with
          | nil => exact absurd rfl hp
          | cons b bs => simp [emit]
        rw [e1, hE]
        simp

/-- A call of `Write` on a sink that accepts everything from its current state on. -/
theorem Writer.Write_accepts_from (w : Writer σ ε) (world : World σ ε) (p : Bytes)
    (Inv : σ → Prop) (hS : AcceptsAllFrom w.w Inv) (h0 : Inv world.sink) :
    (w.Write world p).n = p.length ∧
    (w.Write world p).writer =
      { w with head := headAfter w.head p,
               written := w.written + (emit w.pfx w.sfx w.head p).length } ∧
    (p ≠ [] → (w.Write world p).err =
      (w.flush (w.loop p.length world p 0).world).1) ∧
    (p = [] → (w.Write world p).err = none) ∧
    (w.flush = getFlush w.w →
      received (w.Write world p).world.trace =
        received world.trace ++ emit w.pfx w.sfx w.head p) := by
  obtain ⟨h1, h2, h3, h4, _⟩ :=
    Writer.loop_accepts_from p.length w world p 0 Inv hS h0 (le_refl _)
  by_cases hp : p = []
  · subst hp
    simp [Writer.Write, emit, headAfter]
  · have hlen : ¬ p.length = 0 := fun h => hp (List.length_eq_zero.mp h)
    simp only [Writer.Write, hlen, if_false, h2]
    refine ⟨by simpa using h1, h3, fun _ => by rw [h3], fun h => absurd h hp, fun hfl => ?_⟩
    rw [h3]
    simp only
    rw [hfl]
    obtain ⟨evs, e1, e2, _, _⟩ := getFlush_spec w.w (w.loop p.length world p 0).world
    rw [e1, received_append, e2, h4]
    simp

theorem recovering_contract (fe : Option String) : Contract (recovering fe) := by
  intro s c
  cases s with
  | none => simp [recovering]
  | some limit =>
    simp only [recovering]
    split
    · refine ⟨by simp, by simp only; omega, fun h => by simp at h⟩
    · exact ⟨by simp, by simp, fun _ => rfl⟩

theorem recovering_accepts (fe : Option String) :
    AcceptsAllFrom (recovering fe) (fun s => s = none) := by
  intro s c hs
  subst hs
  exact ⟨rfl, rfl⟩

/-! ## Claims C13 and C17 -/

/-- C13 as stated fails: over `recovering (some "flush")` with limit 8, prefix `"P"`, suffix
`"SS"`, `Write("A\nBCD\nEF")` returns `(4, err)` because the sink accepted 2 of the 3 bytes
of the payload `"BCD"`; the sink then accepts every write in full, yet `Write(p[4:])` does
not return `(len(p) - 4, nil)`: it returns the error of the flush. -/
theorem C13_resume_counterexample :
    ((New (recovering (some "flush")) [80] [83, 83]).Write ⟨some 8, []⟩
        [65, 10, 66, 67, 68, 10, 69, 70]).n = 4 ∧
    ((New (recovering (some "flush")) [80] [83, 83]).Write ⟨some 8, []⟩
        [65, 10, 66, 67, 68, 10, 69, 70]).err = some "limit" ∧
    ((New (recovering (some "flush")) [80] [83, 83]).WriteKinds ⟨some 8, []⟩
        [65, 10, 66, 67, 68, 10, 69, 70]).getLast? = some Kind.payload ∧
    ((New (recovering (some "flush")) [80] [83, 83]).Write ⟨some 8, []⟩
        [65, 10, 66, 67, 68, 10, 69, 70]).world.sink = none ∧
    ¬ ((((New (recovering (some "flush")) [80] [83, 83]).Write ⟨some 8, []⟩
          [65, 10, 66, 67, 68, 10, 69, 70]).writer.Write
        ((New (recovering (some "flush")) [80] [83, 83]).Write ⟨some 8, []⟩
          [65, 10, 66, 67, 68, 10, 69, 70]).world [68, 10, 69, 70]).n = 8 - 4 ∧
      (((New (recovering (some "flush")) [80] [83, 83]).Write ⟨some 8, []⟩
          [65, 10, 66, 67, 68, 10, 69, 70]).writer.Write
        ((New (recovering (some "flush")) [80] [83, 83]).Write ⟨some 8, []⟩
          [65, 10, 66, 67, 68, 10, 69, 70]).world [68, 10, 69, 70]).err = none) := by
  decide

/-- C13 amended (resumption after a payload failure): for every Writer state and input `p`,
over a sink that honours the `io.Writer` contract on counts and whose flush succeeds, if
`Write(p)` returns `(n, err)` with an error and the last sink write it made is a payload
write, and the sink from then on accepts every write in full, then `0 ≤ n ≤ len(p)`,
`Write(p[n:])` returns `(len(p) - n, nil)`, and the bytes the sink received across the two
calls are exactly those an all-accepting sink receives from one `Write(p)` started in the
same Writer state. -/
theorem C13_resume_payload_failure (w : Writer σ ε) (world : World σ ε) (p : Bytes)
    (Inv : σ → Prop) (hfl : w.flush = getFlush w.w) (hc : Contract w.w)
    (hF : ∀ wd : World σ ε, (w.flush wd).1 = none)
    (herr : (w.Write world p).err ≠ none)
    (hk : (w.WriteKinds world p).getLast? = some Kind.payload)
    (hS : AcceptsAllFrom w.w Inv) (h0 : Inv (w.Write world p).world.sink) :
    0 ≤ (w.Write world p).n ∧ (w.Write world p).n ≤ p.length ∧
    ((w.Write world p).writer.Write (w.Write world p).world
      (p.drop (w.Write world p).n.toNat)).n = p.length - (w.Write world p).n ∧
    ((w.Write world p).writer.Write (w.Write world p).world
      (p.drop (w.Write world p).n.toNat)).err = none ∧
    received (w.callEvents world p ++ (w.Write world p).writer.callEvents
      (w.Write world p).world (p.drop (w.Write world p).n.toNat)) =
        emit w.pfx w.sfx w.head p ∧
    ∀ (σ' ε' : Type) (S' : Sink σ' ε') (world' : World σ' ε'), AcceptsAll S' →
      received ((⟨S', getFlush S', w.pfx, w.sfx, w.head, w.written⟩ :
        Writer σ' ε').callEvents world' p) = emit w.pfx w.sfx w.head p := by
  have hp : p ≠ [] := by
    intro hp
    subst hp
    simp [Writer.Write] at herr
  obtain ⟨t0, t1, fevs, t2, _, _, _, t5⟩ := Writer.Write_trace w world p hp hfl
  have hlerr : (w.loop p.length world p 0).err ≠ none := by
    intro hn
    apply herr
    have hlen : ¬ p.length = 0 := fun h => hp (List.length_eq_zero.mp h)
    simp only [Writer.Write, hlen, if_false, hn]
    rw [(Writer.loop_frame p.length w world p 0).2.1]
    exact hF _
  obtain ⟨hfe, _⟩ := t5 hlerr
  subst hfe
  rw [List.append_nil] at t2
  obtain ⟨m, m1, m2, m3, m4⟩ :=
    Writer.loop_payload_failure p.length w world p 0 hc (le_refl _) hlerr hk
  obtain ⟨f1, f2, f3, f4⟩ := Writer.Write_frame w world p
  have hn : (w.Write world p).n = (m : Int) := by rw [t0, m2]; simp
  have hnat : (w.Write world p).n.toNat = m := by rw [hn]; simp
  have hS2 : AcceptsAllFrom (w.Write world p).writer.w Inv := by rw [f1]; exact hS
  have hfl2 : (w.Write world p).writer.flush = getFlush (w.Write world p).writer.w := by
    rw [f1, f2]; exact hfl
  obtain ⟨a1, _, a3, a4, a5⟩ := Writer.Write_accepts_from (w.Write world p).writer
    (w.Write world p).world (p.drop (w.Write world p).n.toNat) Inv hS2 h0
  have hhead : (w.Write world p).writer.head = false := by rw [t1]; exact m3
  have hrec := a5 hfl2
  rw [f3, f4, hhead, hnat, t2] at hrec
  rw [hnat] at a1 a3 a4
  have e1 := (Writer.Write_events w world p hfl).1
  have e2 := (Writer.Write_events (w.Write world p).writer (w.Write world p).world
    (p.drop (w.Write world p).n.toNat) hfl2).1
  refine ⟨by omega, by omega, ?_, ?_, ?_, ?_⟩
  · rw [hnat, a1, hn, List.length_drop]; omega
  · rw [hnat]
    by_cases hd : p.drop m = []
    · exact a4 hd
    · rw [a3 hd, f2]; exact hF _
  · have h1 : received ((w.Write world p).writer.Write (w.Write world p).world
        (p.drop (w.Write world p).n.toNat)).world.trace =
        received world.trace ++ received (w.callEvents world p ++
          (w.Write world p).writer.callEvents (w.Write world p).world
            (p.drop (w.Write world p).n.toNat)) := by
      rw [e2, e1, List.append_assoc, received_append]
    rw [hnat] at h1
    rw [hnat]
    have h2 := h1.symm.trans (hrec.trans m4)
    exact List.append_cancel_left h2
  · intro σ' ε' S' world' hS'
    have b5 := (Writer.Write_accepts (⟨S', getFlush S', w.pfx, w.sfx, w.head, w.written⟩ :
      Writer σ' ε') world' p hS').2.2.2.2 rfl
    have b1 := (Writer.Write_events (⟨S', getFlush S', w.pfx, w.sfx, w.head, w.written⟩ :
      Writer σ' ε') world' p rfl).1
    rw [b1, received_append] at b5
    exact List.append_cancel_left b5

/-- C13 amended over `recovering none` with limit 8, prefix `"P"`, suffix `"SS"`, input
`"A\nBCD\nEF"`: the first call returns 4, the second `(4, nil)`. -/
theorem C13_resume_payload_failure_witness :
    ((New (recovering none) [80] [83, 83]).Write ⟨some 8, []⟩
        [65, 10, 66, 67, 68, 10, 69, 70]).n = 4 ∧
    (((New (recovering none) [80] [83, 83]).Write ⟨some 8, []⟩
          [65, 10, 66, 67, 68, 10, 69, 70]).writer.Write
        ((New (recovering none) [80] [83, 83]).Write ⟨some 8, []⟩
          [65, 10, 66, 67, 68, 10, 69, 70]).world
        (([65, 10, 66, 67, 68, 10, 69, 70] : Bytes).drop
          ((New (recovering none) [80] [83, 83]).Write ⟨some 8, []⟩
            [65, 10, 66, 67, 68, 10, 69, 70]).n.toNat)).err = none ∧
    received ((New (recovering none) [80] [83, 83]).callEvents ⟨some 8, []⟩
        [65, 10, 66, 67, 68, 10, 69, 70] ++
      ((New (recovering none) [80] [83, 83]).Write ⟨some 8, []⟩
          [65, 10, 66, 67, 68, 10, 69, 70]).writer.callEvents
        ((New (recovering none) [80] [83, 83]).Write ⟨some 8, []⟩
          [65, 10, 66, 67, 68, 10, 69, 70]).world
        (([65, 10, 66, 67, 68, 10, 69, 70] : Bytes).drop
          ((New (recovering none) [80] [83, 83]).Write ⟨some 8, []⟩
            [65, 10, 66, 67, 68, 10, 69, 70]).n.toNat)) =
      emit [80] [83, 83, 10] true [65, 10, 66, 67, 68, 10, 69, 70] :=
  have h := C13_resume_payload_failure (New (recovering none) [80] [83, 83]) ⟨some 8, []⟩
    [65, 10, 66, 67, 68, 10, 69, 70] (fun s => s = none) rfl (recovering_contract none)
    (fun _ => rfl) (by decide) (by decide) (recovering_accepts none) (by decide)
  ⟨by decide, h.2.2.2.1, h.2.2.2.2.1⟩

/-- C17 (resumption is not safe mid-prefix or mid-suffix): over the sink `recovering none`,
which fails once and accepts every write in full afterwards, there are a prefix, a suffix,
an input `p` and a limit such that `Write(p)` fails on a prefix write (prefix `"123456789"`,
input `"ABCDEFG"`, 5 bytes accepted), resp. on a suffix+terminator write (prefix `"P"`,
suffix `"SS"`, input `"A\n"`, 3 bytes accepted), returning `(n, err)`, and after
`Write(p[n:])`, which succeeds, the sink holds bytes other than `decorate(p)`. -/
theorem C17_resumption_unsafe :
    AcceptsAllFrom (recovering none) (fun s => s = none) ∧
    (∃ (pfx sfx p : Bytes) (limit : Nat),
      ((New (recovering none) pfx sfx).WriteKinds ⟨some limit, []⟩ p).getLast? =
        some Kind.pre ∧
      ((New (recovering none) pfx sfx).Write ⟨some limit, []⟩ p).err ≠ none ∧
      ((New (recovering none) pfx sfx).Write ⟨some limit, []⟩ p).world.sink = none ∧
      (((New (recovering none) pfx sfx).Write ⟨some limit, []⟩ p).writer.Write
        ((New (recovering none) pfx sfx).Write ⟨some limit, []⟩ p).world
        (p.drop ((New (recovering none) pfx sfx).Write ⟨some limit, []⟩ p).n.toNat)).err =
          none ∧
      received (((New (recovering none) pfx sfx).Write ⟨some limit, []⟩ p).writer.Write
        ((New (recovering none) pfx sfx).Write ⟨some limit, []⟩ p).world
        (p.drop ((New (recovering none) pfx sfx).Write ⟨some limit, []⟩
          p).n.toNat)).world.trace ≠ decorate pfx sfx p) ∧
    (∃ (pfx sfx p : Bytes) (limit : Nat),
      ((New (recovering none) pfx sfx).WriteKinds ⟨some limit, []⟩ p).getLast? =
        some Kind.suf ∧
      ((New (recovering none) pfx sfx).Write ⟨some limit, []⟩ p).err ≠ none ∧
      ((New (recovering none) pfx sfx).Write ⟨some limit, []⟩ p).world.sink = none ∧
      (((New (recovering none) pfx sfx).Write ⟨some limit, []⟩ p).writer.Write
        ((New (recovering none) pfx sfx).Write ⟨some limit, []⟩ p).world
        (p.drop ((New (recovering none) pfx sfx).Write ⟨some limit, []⟩ p).n.toNat)).err =
          none ∧
      received (((New (recovering none) pfx sfx).Write ⟨some limit, []⟩ p).writer.Write
        ((New (recovering none) pfx sfx).Write ⟨some limit, []⟩ p).world
        (p.drop ((New (recovering none) pfx sfx).Write ⟨some limit, []⟩
          p).n.toNat)).world.trace ≠ decorate pfx sfx p) :=
  ⟨recovering_accepts none,
    ⟨[49, 50, 51, 52, 53, 54, 55, 56, 57], [], [65, 66, 67, 68, 69, 70, 71], 5, by decide⟩,
    ⟨[80], [83, 83], [65, 10], 3, by decide⟩⟩

/-! ## The counters as Go computes them -/

theorem wrap64_add_left (a b : Int) : wrap64 (wrap64 a + b) = wrap64 (a + b) := by
  unfold wrap64
  omega

theorem wrap64_of_range (a : Int) (h1 : -9223372036854775808 ≤ a)
    (h2 : a < 9223372036854775808) : wrap64 a = a := by
  unfold wrap64
  omega

theorem wrap64_range (a : Int) :
    -9223372036854775808 ≤ wrap64 a ∧ wrap64 a < 9223372036854775808 := by
  unfold wrap64
  omega

/-- The loop with Go's counters is the loop with unbounded counters, the counters wrapped:
the control flow never looks at `n` or `written`. -/
theorem Writer.loop64_wrapped (fuel : Nat) (w : Writer σ ε) (world : World σ ε) (p : Bytes)
    (n : Int) :
    w.wrapped.loop64 fuel world p (wrap64 n) = (w.loop fuel world p n).wrapped := by
  induction fuel generalizing w world p n with
  | zero => simp [Writer.loop, Writer.loop64, Result.wrapped]
  | succ fuel ih =>
    obtain ⟨S, fl, pfx, sfx, head, written⟩ := w
    by_cases hp : p.length > 0
    · cases head
      · simp only [Writer.loop, Writer.loop64, Writer.wrapped, hp, if_true, Bool.false_eq_true,
          if_false]
        cases indexByte p nl with
        | none => simp [Result.wrapped, Writer.wrapped, wrap64_add_left]
        | some i =>
          simp only
          cases (sinkWrite S world (p.take i)).err with
          | some e => simp [Result.wrapped, Writer.wrapped, wrap64_add_left]
          | none =>
            simp only
            cases (sinkWrite S (sinkWrite S world (p.take i)).world sfx).err with
            | some e => simp [Result.wrapped, Writer.wrapped, wrap64_add_left]
            | none =>
              simp only [wrap64_add_left]
              exact ih ⟨S, fl, pfx, sfx, true, written + (sinkWrite S world (p.take i)).nn +
                (sinkWrite S (sinkWrite S world (p.take i)).world sfx).nn⟩ _ _ _
      · simp only [Writer.loop, Writer.loop64, Writer.wrapped, hp, if_true]
        cases (sinkWrite S world pfx).err with
        | some e => simp [Result.wrapped, Writer.wrapped, wrap64_add_left]
        | none =>
          simp only
          cases indexByte p nl with
          | none => simp [Result.wrapped, Writer.wrapped, wrap64_add_left]
          | some i =>
            simp only
            cases (sinkWrite S (sinkWrite S world pfx).world (p.take i)).err with
            | some e => simp [Result.wrapped, Writer.wrapped, wrap64_add_left]
            | none =>
              simp only
              cases (sinkWrite S (sinkWrite S (sinkWrite S world pfx).world (p.take i)).world
                sfx).err with
              | some e => simp [Result.wrapped, Writer.wrapped, wrap64_add_left]
              | none =>
                simp only [wrap64_add_left]
                exact ih ⟨S, fl, pfx, sfx, true, written + (sinkWrite S world pfx).nn +
                  (sinkWrite S (sinkWrite S world pfx).world (p.take i)).nn +
                  (sinkWrite S (sinkWrite S (sinkWrite S world pfx).world (p.take i)).world
                    sfx).nn⟩ _ _ _
    · simp [Writer.loop, Writer.loop64, Writer.wrapped, Result.wrapped, hp]

theorem Writer.Write64_wrapped (w : Writer σ ε) (world : World σ ε) (p : Bytes) :
    w.wrapped.Write64 world p = (w.Write world p).wrapped := by
  have h := Writer.loop64_wrapped p.length w world p 0
  have h0 : wrap64 0 = 0 := by decide
  rw [h0] at h
  unfold Writer.Write64 Writer.Write
  by_cases hp : p.length = 0
  · simp [hp, Result.wrapped, h0]
  · simp only [hp, if_false, h]
    cases he : (w.loop p.length world p 0).err with
    | none => simp [Result.wrapped, he, Writer.wrapped]
    | some e => simp [Result.wrapped, he]

theorem Writer.wrapped_of_range (w : Writer σ ε) (h1 : -9223372036854775808 ≤ w.written)
    (h2 : w.written < 9223372036854775808) : w.wrapped = w := by
  obtain ⟨S, fl, pfx, sfx, head, written⟩ := w
  simp only [Writer.wrapped, wrap64_of_range written h1 h2]

theorem Writer.calls64_wrapped (w : Writer σ ε) (world : World σ ε) (cs : List Call) :
    w.wrapped.calls64 world cs = ((w.calls world cs).1.wrapped, (w.calls world cs).2) := by
  induction cs generalizing w world with
  | nil => rfl
  | cons c cs ih =>
    cases c with
    | Write p =>
      simp only [Writer.calls64, Writer.calls, Writer.call64, Writer.call,
        Writer.Write64_wrapped]
      exact ih _ _
    | Flush =>
      simp only [Writer.calls64, Writer.calls, Writer.call64, Writer.call]
      exact ih _ _
    | Written =>
      simp only [Writer.calls64, Writer.calls, Writer.call64, Writer.call]
      exact ih _ _

/-- Along a sequence of calls the unbounded count of written bytes is its initial value
plus the counts returned by the sink writes made. -/
theorem Writer.calls_accepted (w : Writer σ ε) (world : World σ ε) (cs : List Call)
    (hfl : w.flush = getFlush w.w) :
    ∃ evs : List (Event ε), (w.calls world cs).2.trace = world.trace ++ evs ∧
      (w.calls world cs).1.written = w.written + accepted evs := by
  induction cs generalizing w world with
  | nil => exact ⟨[], by simp [Writer.calls], by simp [Writer.calls, accepted]⟩
  | cons c cs ih =>
    cases c with
    | Write p =>
      obtain ⟨h1, h2, _⟩ := Writer.Write_history w world p hfl
      obtain ⟨f1, f2, _, _⟩ := Writer.Write_frame w world p
      obtain ⟨evs, i1, i2⟩ := ih (w.Write world p).writer (w.Write world p).world
        (by rw [f1, f2]; exact hfl)
      refine ⟨w.callEvents world p ++ evs, ?_, ?_⟩
      · simp only [Writer.calls, Writer.call]
        rw [i1, h1, List.append_assoc]
      · simp only [Writer.calls, Writer.call]
        rw [i2, h2, accepted_append]; omega
    | Flush =>
      obtain ⟨fevs, e1, _, e3, _⟩ := getFlush_spec w.w world
      obtain ⟨evs, i1, i2⟩ := ih w (w.Flush world).2 hfl
      refine ⟨fevs ++ evs, ?_, ?_⟩
      · simp only [Writer.calls, Writer.call]
        rw [i1]
        simp only [Writer.Flush, hfl]
        rw [e1, List.append_assoc]
      · simp only [Writer.calls, Writer.call]
        rw [i2, accepted_append, (flushes_only fevs e3).1]; omega
    | Written =>
      obtain ⟨evs, i1, i2⟩ := ih w world hfl
      exact ⟨evs, by simpa [Writer.calls, Writer.call] using i1,
        by simpa [Writer.calls, Writer.call] using i2⟩

/-- C11 as stated fails on Go's counters: over the sink `greedy`, whose writes return the
non-negative count `math.MaxInt64`, `Write("a")` on a fresh Writer makes two sink writes and
leaves `Written()` at -2: the difference with its value before, 0, is not the sum of the
two counts, and `Written()` has decreased. -/
theorem C11_written_counterexample :
    ¬ (((New greedy [] []).Write64 ⟨(), []⟩ [97]).writer.Written -
        (New greedy [] []).Written =
      accepted ((New greedy [] []).callEvents64 ⟨(), []⟩ [97])) ∧
    ¬ ((New greedy [] []).Written ≤
      ((New greedy [] []).Write64 ⟨(), []⟩ [97]).writer.Written) := by
  decide

/-- C11 amended (Written counts accepted bytes only): for every Writer state, input and
sink, `Written()` after `Write(p)` is the `int64` sum, with wrap-around, of its value before
and the counts the sink returned for the write calls of that `Write`, with or without an
error; when that sum is within `int64` the difference is exactly the sum of the counts; and
over a sink returning non-negative counts `Written()` never decreases along a sequence of
`Write`, `Flush` and `Written` calls whose counts add up, with the initial value, to less
than `2^63`. -/
theorem C11_written_counts_accepted (w : Writer σ ε) (world : World σ ε) (p : Bytes)
    (hfl : w.flush = getFlush w.w) (h1 : -9223372036854775808 ≤ w.written)
    (h2 : w.written < 9223372036854775808) :
    (w.Write64 world p).writer.Written =
      wrap64 (w.Written + accepted (w.callEvents64 world p)) ∧
    (-9223372036854775808 ≤ w.Written + accepted (w.callEvents64 world p) →
      w.Written + accepted (w.callEvents64 world p) < 9223372036854775808 →
      (w.Write64 world p).writer.Written - w.Written = accepted (w.callEvents64 world p)) ∧
    ((∀ (s : σ) (c : Bytes), 0 ≤ (w.w.Write s c).1.1) →
      ∀ cs1 cs2 : List Call,
        w.Written + accepted ((w.calls64 world (cs1 ++ cs2)).2.trace.drop world.trace.length) <
          9223372036854775808 →
        (w.calls64 world cs1).1.Written ≤ (w.calls64 world (cs1 ++ cs2)).1.Written) := by
  have hw := Writer.wrapped_of_range w h1 h2
  have hW := Writer.Write64_wrapped w world p
  rw [hw] at hW
  have hev : w.callEvents64 world p = w.callEvents world p := by
    simp only [Writer.callEvents64, Writer.callEvents, hW, Result.wrapped]
  have hacc := (Writer.Write_history w world p hfl).2.1
  have hfirst : (w.Write64 world p).writer.Written =
      wrap64 (w.Written + accepted (w.callEvents64 world p)) := by
    rw [hev, hW]
    simp only [Result.wrapped, Writer.wrapped, Writer.Written, hacc]
  refine ⟨hfirst, fun a b => ?_, fun hS cs1 cs2 hlt => ?_⟩
  · rw [hfirst, wrap64_of_range _ a b]; omega
  · have hc := fun cs => Writer.calls64_wrapped w world cs
    rw [hw] at hc
    obtain ⟨evs, e1, e2⟩ := Writer.calls_accepted w world (cs1 ++ cs2) hfl
    rw [hc (cs1 ++ cs2)] at hlt
    simp only at hlt
    rw [e1, List.drop_left] at hlt
    obtain ⟨g1, g2⟩ := Writer.calls_written_le w world cs1 hS
    have g3 := (Writer.calls_written_le (w.calls world cs1).1 (w.calls world cs1).2 cs2
      (by rw [g2]; exact hS)).1
    rw [← Writer.calls_append] at g3
    simp only [Writer.Written] at hlt
    rw [← e2] at hlt
    rw [hc cs1, hc (cs1 ++ cs2)]
    simp only [Writer.wrapped, Writer.Written]
    rw [wrap64_of_range _ (by omega) (by omega), wrap64_of_range _ (by omega) (by omega)]
    exact g3

/-- C11 amended at a test of `writer_test.go` (`limitWriter` with limit 8, input
`"ABCDE\nFGHIJ\n"`): the sink accepted 5 bytes of prefix and 3 of payload, `Written()` goes
from 0 to 8. -/
theorem C11_written_counts_accepted_witness :
    ((New limitWriter [49, 50, 51, 52, 53] [49, 50, 51, 52]).Write64 ⟨8, []⟩
        [65, 66, 67, 68, 69, 10, 70, 71, 72, 73, 74, 10]).writer.Written =
      wrap64 ((New limitWriter [49, 50, 51, 52, 53] [49, 50, 51, 52]).Written +
        accepted ((New limitWriter [49, 50, 51, 52, 53] [49, 50, 51, 52]).callEvents64 ⟨8, []⟩
          [65, 66, 67, 68, 69, 10, 70, 71, 72, 73, 74, 10])) ∧
    accepted ((New limitWriter [49, 50, 51, 52, 53] [49, 50, 51, 52]).callEvents64 ⟨8, []⟩
        [65, 66, 67, 68, 69, 10, 70, 71, 72, 73, 74, 10]) = 8 ∧
    ((New limitWriter [49, 50, 51, 52, 53] [49, 50, 51, 52]).Write64 ⟨8, []⟩
        [65, 66, 67, 68, 69, 10, 70, 71, 72, 73, 74, 10]).writer.Written = 8 :=
  ⟨(C11_written_counts_accepted (New limitWriter [49, 50, 51, 52, 53] [49, 50, 51, 52])
    ⟨8, []⟩ [65, 66, 67, 68, 69, 10, 70, 71, 72, 73, 74, 10] rfl (by decide) (by decide)).1,
    by decide, by decide⟩

/-! ## A `Write` all of whose sink writes were accepted in full -/

theorem Event.full_write {c : Bytes} {nn : Int} {err : Option ε}
    (h : (Event.write c nn err).full = true) : nn = (c.length : Int) ∧ err = none := by
  simp only [Event.full, Bool.and_eq_true, decide_eq_true_eq, Option.isNone_iff_eq_none] at h
  exact h

/-- A run of the loop whose sink writes were all accepted in full without error: it consumes
all of `p` and delivers what the byte-by-byte reading says. -/
theorem Writer.loop_all_full (fuel : Nat) (w : Writer σ ε) (world : World σ ε) (p : Bytes)
    (n : Int) (evs : List (Event ε)) (hf : p.length ≤ fuel)
    (htr : (w.loop fuel world p n).world.trace = world.trace ++ evs)
    (hW : evs.all Event.full = true) :
    (w.loop fuel world p n).n = n + p.length ∧
    (w.loop fuel world p n).err = none ∧
    (w.loop fuel world p n).writer =
      { w with head := headAfter w.head p,
               written := w.written + (emit w.pfx w.sfx w.head p).length } ∧
    received evs = emit w.pfx w.sfx w.head p := by
  induction fuel generalizing w world p n evs with
  | zero =>
    have hp : p = [] := List.length_eq_zero.mp (by omega)
    subst hp
    have : evs = [] := by
      simp only [Writer.loop] at htr
      exact (List.self_eq_append_right.mp htr)
    subst this
    simp [Writer.loop, emit, headAfter, received]
  | succ fuel ih =>
    by_cases hp : p = []
    · subst hp
      have : evs = [] := by
        simp only [Writer.loop_nil] at htr
        exact (List.self_eq_append_right.mp htr)
      subst this
      simp [Writer.loop_nil, emit, headAfter, received]
    have hlen : 0 < p.length := List.length_pos.mpr hp
    obtain ⟨S, fl, pfx, sfx, head, written⟩ := w
    have hbody : ∀ (written : Int) (world : World σ ε) (evs : List (Event ε)),
        (Writer.loop (fuel + 1) ⟨S, fl, pfx, sfx, false, written⟩ world p n).world.trace =
          world.trace ++ evs → evs.all Event.full = true →
        (Writer.loop (fuel + 1) ⟨S, fl, pfx, sfx, false, written⟩ world p n).n = n + p.length ∧
        (Writer.loop (fuel + 1) ⟨S, fl, pfx, sfx, false, written⟩ world p n).err = none ∧
        (Writer.loop (fuel + 1) ⟨S, fl, pfx, sfx, false, written⟩ world p n).writer =
          ⟨S, fl, pfx, sfx, headAfter false p, written + (emit pfx sfx false p).length⟩ ∧
        received evs = emit pfx sfx false p := by
      intro written world evs htr hW
      have hloop := Writer.loop_body fuel S fl pfx sfx written world p n hlen
      cases hidx : indexByte p nl with
      | none =>
        rw [hidx] at hloop
        simp only at hloop
        rw [hloop] at htr ⊢
        simp only [sinkWrite_trace, List.append_cancel_left_eq] at htr
        subst htr
        have hfull : (Event.write p (sinkWrite S world p).nn (sinkWrite S world p).err).full =
            true := by simpa using hW
        obtain ⟨a1, a2⟩ := Event.full_write hfull
        have he := emit_of_index_none pfx sfx false hp hidx
        have hh := headAfter_of_index_none false hp hidx
        simp [a1, a2, he, hh, received]
      | some i =>
        obtain ⟨hi1, _, _⟩ := indexByte_some hidx
        rw [hidx] at hloop
        simp only at hloop
        have he := emit_of_index_some pfx sfx false hidx
        have hh := headAfter_of_index_some false hidx
        have hdrop : (p.drop (i + 1)).length ≤ fuel := by rw [List.length_drop]; omega
        have hmin : min i p.length = i := by omega
        cases ha : (sinkWrite S world (p.take i)).err with
        | some e =>
          rw [ha] at hloop
          simp only at hloop
          rw [hloop] at htr
          simp only [sinkWrite_trace, List.append_cancel_left_eq] at htr
          subst htr
          have hfull : (Event.write (p.take i) (sinkWrite S world (p.take i)).nn
              (sinkWrite S world (p.take i)).err).full = true := by simpa using hW
          have := (Event.full_write hfull).2
          rw [ha] at this
          simp at this
        | none =>
          rw [ha] at hloop
          simp only at hloop
          cases hb : (sinkWrite S (sinkWrite S world (p.take i)).world sfx).err with
          | some e2 =>
            rw [hb] at hloop
            simp only at hloop
            rw [hloop] at htr
            simp only [sinkWrite_trace, List.append_assoc, List.append_cancel_left_eq] at htr
            subst htr
            have hfull : (Event.write sfx
                (sinkWrite S (sinkWrite S world (p.take i)).world sfx).nn
                (sinkWrite S (sinkWrite S world (p.take i)).world sfx).err).full = true := by
              simp only [List.all_append, List.all_cons, List.all_nil, Bool.and_true,
                Bool.and_eq_true] at hW
              exact hW.2
            have := (Event.full_write hfull).2
            rw [hb] at this
            simp at this
          | none =>
            rw [hb] at hloop
            simp only at hloop
            obtain ⟨evs2, t1, _, _⟩ := Writer.loop_trace fuel
              ⟨S, fl, pfx, sfx, true, written + (sinkWrite S world (p.take i)).nn +
                (sinkWrite S (sinkWrite S world (p.take i)).world sfx).nn⟩
              (sinkWrite S (sinkWrite S world (p.take i)).world sfx).world (p.drop (i + 1))
              (n + (sinkWrite S world (p.take i)).nn + 1)
            rw [hloop] at htr ⊢
            have hevs : evs = Event.write (p.take i) (sinkWrite S world (p.take i)).nn
                (sinkWrite S world (p.take i)).err ::
                Event.write sfx (sinkWrite S (sinkWrite S world (p.take i)).world sfx).nn
                  (sinkWrite S (sinkWrite S world (p.take i)).world sfx).err :: evs2 := by
              rw [t1] at htr
              simp only [sinkWrite_trace, List.append_assoc, List.append_cancel_left_eq] at htr
              rw [← htr]; rfl
            subst hevs
            simp only [List.all_cons, Bool.and_eq_true] at hW
            obtain ⟨hA, hB, hR⟩ := hW
            obtain ⟨a1, _⟩ := Event.full_write hA
            obtain ⟨b1, _⟩ := Event.full_write hB
            obtain ⟨h1, h2, h3, h4⟩ := ih
              ⟨S, fl, pfx, sfx, true, written + (sinkWrite S world (p.take i)).nn +
                (sinkWrite S (sinkWrite S world (p.take i)).world sfx).nn⟩
              (sinkWrite S (sinkWrite S world (p.take i)).world sfx).world (p.drop (i + 1))
              (n + (sinkWrite S world (p.take i)).nn + 1) evs2 hdrop t1 hR
            refine ⟨?_, h2, ?_, ?_⟩
            · rw [h1, a1]; simp [List.length_drop, hmin]; omega
            · rw [h3, he, hh, a1, b1]; simp [hmin, List.length_drop]; omega
            · simp only [received]
              simp only at h4
              rw [h4, he, a1, b1]
              simp
              exact Or.inl hi1.le
    cases head
    · exact hbody written world evs htr hW
    · have hloop := Writer.loop_head fuel S fl pfx sfx written world p n hlen
      have hE : emit pfx sfx true p = pfx ++ emit pfx sfx false p := by
        cases p with
        | nil => exact absurd rfl hp
        | cons b bs => simp [emit]
      have hH : headAfter true p = headAfter false p := by
        cases p with
        | nil => exact absurd rfl hp
        | cons b bs => simp [headAfter]
      cases h0 : (sinkWrite S world pfx).err with
      | some e =>
        rw [h0] at hloop
        simp only at hloop
        rw [hloop] at htr
        simp only [sinkWrite_trace, List.append_cancel_left_eq] at htr
        subst htr
        have hfull : (Event.write pfx (sinkWrite S world pfx).nn
            (sinkWrite S world pfx).err).full = true := by simpa using hW
        have := (Event.full_write hfull).2
        rw [h0] at this
        simp at this
      | none =>
        rw [h0] at hloop
        simp only at hloop
        obtain ⟨evs2, t1, _, _⟩ := Writer.loop_trace (fuel + 1)
          ⟨S, fl, pfx, sfx, false, written + (sinkWrite S world pfx).nn⟩
          (sinkWrite S world pfx).world p n
        rw [hloop] at htr ⊢
        have hevs : evs = Event.write pfx (sinkWrite S world pfx).nn
            (sinkWrite S world pfx).err :: evs2 := by
          rw [t1] at htr
          simp only [sinkWrite_trace, List.append_assoc, List.append_cancel_left_eq] at htr
          rw [← htr]; rfl
        subst hevs
        simp only [List.all_cons, Bool.and_eq_true] at hW
        obtain ⟨hA, hR⟩ := hW
        obtain ⟨a1, _⟩ := Event.full_write hA
        obtain ⟨h1, h2, h3, h4⟩ := hbody (written + (sinkWrite S world pfx).nn)
          (sinkWrite S world pfx).world evs2 t1 hR
        refine ⟨h1, h2, ?_, ?_⟩
        · rw [h3, hE, hH, a1]; simp; omega
        · simp only [received]
          rw [h4, hE, a1]
          simp

/-- The loop looks at the sink only through its `Write`: two Writers in the same state over
sinks with the same `Write` run the same loop, whatever their flush. -/
theorem Writer.loop_congr (fuel : Nat) (S S' : Sink σ ε)
    (fl fl' : World σ ε → Option ε × World σ ε) (pfx sfx : Bytes) (head : Bool)
    (written : Int) (world : World σ ε) (p : Bytes) (n : Int) (hS : S'.Write = S.Write) :
    (Writer.loop fuel ⟨S', fl', pfx, sfx, head, written⟩ world p n).n =
      (Writer.loop fuel ⟨S, fl, pfx, sfx, head, written⟩ world p n).n ∧
    (Writer.loop fuel ⟨S', fl', pfx, sfx, head, written⟩ world p n).err =
      (Writer.loop fuel ⟨S, fl, pfx, sfx, head, written⟩ world p n).err ∧
    (Writer.loop fuel ⟨S', fl', pfx, sfx, head, written⟩ world p n).world =
      (Writer.loop fuel ⟨S, fl, pfx, sfx, head, written⟩ world p n).world ∧
    (Writer.loop fuel ⟨S', fl', pfx, sfx, head, written⟩ world p n).writer.head =
      (Writer.loop fuel ⟨S, fl, pfx, sfx, head, written⟩ world p n).writer.head ∧
    (Writer.loop fuel ⟨S', fl', pfx, sfx, head, written⟩ world p n).writer.written =
      (Writer.loop fuel ⟨S, fl, pfx, sfx, head, written⟩ world p n).writer.written := by
  have hsw : ∀ (wd : World σ ε) (c : Bytes), sinkWrite S' wd c = sinkWrite S wd c := by
    intro wd c
    simp [sinkWrite, hS]
  induction fuel generalizing head written world p n with
  | zero => simp [Writer.loop]
  | succ fuel ih =>
    by_cases hp : p = []
    · subst hp; simp [Writer.loop_nil]
    have hlen : 0 < p.length := List.length_pos.mpr hp
    have hbody : ∀ (written : Int) (world : World σ ε),
        (Writer.loop (fuel + 1) ⟨S', fl', pfx, sfx, false, written⟩ world p n).n =
          (Writer.loop (fuel + 1) ⟨S, fl, pfx, sfx, false, written⟩ world p n).n ∧
        (Writer.loop (fuel + 1) ⟨S', fl', pfx, sfx, false, written⟩ world p n).err =
          (Writer.loop (fuel + 1) ⟨S, fl, pfx, sfx, false, written⟩ world p n).err ∧
        (Writer.loop (fuel + 1) ⟨S', fl', pfx, sfx, false, written⟩ world p n).world =
          (Writer.loop (fuel + 1) ⟨S, fl, pfx, sfx, false, written⟩ world p n).world ∧
        (Writer.loop (fuel + 1) ⟨S', fl', pfx, sfx, false, written⟩ world p n).writer.head =
          (Writer.loop (fuel + 1) ⟨S, fl, pfx, sfx, false, written⟩ world p n).writer.head ∧
        (Writer.loop (fuel + 1) ⟨S', fl', pfx, sfx, false, written⟩ world p
            n).writer.written =
          (Writer.loop (fuel + 1) ⟨S, fl, pfx, sfx, false, written⟩ world p
            n).writer.written := by
      intro written world
      rw [Writer.loop_body fuel S' fl' pfx sfx written world p n hlen,
        Writer.loop_body fuel S fl pfx sfx written world p n hlen]
      simp only [hsw]
      cases indexByte p nl with
      | none => simp
      | some i =>
        simp only
        cases (sinkWrite S world (p.take i)).err with
        | some e => simp
        | none =>
          simp only
          cases (sinkWrite S (sinkWrite S world (p.take i)).world sfx).err with
          | some e => simp
          | none => exact ih _ _ _ _ _
    cases head
    · exact hbody written world
    · rw [Writer.loop_head fuel S' fl' pfx sfx written world p n hlen,
        Writer.loop_head fuel S fl pfx sfx written world p n hlen]
      simp only [hsw]
      cases (sinkWrite S world pfx).err with
      | some e => simp
      | none => exact hbody _ _

theorem Writer.Write_of_loop (w : Writer σ ε) (world : World σ ε) (p : Bytes) (hp : p ≠ []) :
    (w.Write world p).n = (w.loop p.length world p 0).n ∧
      (w.Write world p).writer = (w.loop p.length world p 0).writer := by
  have hlen : ¬ p.length = 0 := fun h => hp (List.length_eq_zero.mp h)
  simp only [Writer.Write, hlen, if_false]
  cases (w.loop p.length world p 0).err <;> exact ⟨rfl, rfl⟩

/-- After a loop that returned `nil`, `Write` returns what the flush returns: `nil` without
any sink call when the sink has no `Flush`, else the result of the one call of the sink's
`Flush`, recorded last in the trace. -/
theorem Writer.Write_flushed (w : Writer σ ε) (world : World σ ε) (p : Bytes) (hp : p ≠ [])
    (hfl : w.flush = getFlush w.w) (hok : (w.loop p.length world p 0).err = none) :
    (w.w.Flush = none → (w.Write world p).err = none ∧
      (w.Write world p).world = (w.loop p.length world p 0).world) ∧
    (∀ f : σ → Option ε × σ, w.w.Flush = some f →
      (w.Write world p).err = (f (w.loop p.length world p 0).world.sink).1 ∧
      (w.Write world p).world.trace = (w.loop p.length world p 0).world.trace ++
        [Event.flush (f (w.loop p.length world p 0).world.sink).1]) := by
  have hlen : ¬ p.length = 0 := fun h => hp (List.length_eq_zero.mp h)
  obtain ⟨_, f2, _, _⟩ := Writer.loop_frame p.length w world p 0
  simp only [Writer.Write, hlen, if_false, hok]
  rw [f2, hfl]
  constructor
  · intro hn
    simp [getFlush, hn, nop]
  · intro f hf
    simp [getFlush, hf]

theorem flush_mem_flushCount (evs : List (Event ε)) (x : Option ε)
    (h : Event.flush x ∈ evs) : 0 < flushCount evs := by
  induction evs with
  | nil => simp at h
  | cons y ys ih =>
    cases y with
    | write c nn err =>
      rcases List.mem_cons.mp h with h | h
      · cases h
      · simpa [flushCount] using ih h
    | flush err => simp [flushCount]

/-! ## Claims C6 and C15 -/

/-- C15 (flush error overrides a successful write): for every Writer state and non-empty
`p`, if every sink write made during `Write(p)` was accepted in full without error and the
flush made during it returned the error `e`, then `Write(p)` returns `(len(p), e)`, and
`head` and `Written()` are those of any Writer in the same state over a sink with the same
`Write`, whatever its flush returns: what they would be had the flush succeeded. -/
theorem C15_flush_error_overrides (w : Writer σ ε) (world : World σ ε) (p : Bytes) (e : ε)
    (hfl : w.flush = getFlush w.w) (hp : p ≠ [])
    (hW : (w.callEvents world p).all Event.full = true)
    (hF : Event.flush (some e) ∈ w.callEvents world p) :
    (w.Write world p).n = p.length ∧ (w.Write world p).err = some e ∧
    (w.Write world p).writer.head = headAfter w.head p ∧
    (w.Write world p).writer.Written = w.Written + (emit w.pfx w.sfx w.head p).length ∧
    ∀ w' : Writer σ ε, w'.w.Write = w.w.Write → w'.pfx = w.pfx → w'.sfx = w.sfx →
      w'.head = w.head → w'.written = w.written →
      (w'.Write world p).writer.head = (w.Write world p).writer.head ∧
      (w'.Write world p).writer.Written = (w.Write world p).writer.Written := by
  obtain ⟨t0, t1⟩ := Writer.Write_of_loop w world p hp
  obtain ⟨levs, l1, l2, _⟩ := Writer.loop_trace p.length w world p 0
  obtain ⟨_, _, fevs, u1, _⟩ := Writer.Write_trace w world p hp hfl
  have hce : w.callEvents world p = levs ++ fevs :=
    Writer.callEvents_of_trace w world p _ (by rw [u1, l1, List.append_assoc])
  rw [hce] at hW hF
  have hWl : levs.all Event.full = true := by
    simp only [List.all_append, Bool.and_eq_true] at hW
    exact hW.1
  obtain ⟨a1, a2, a3, _⟩ := Writer.loop_all_full p.length w world p 0 levs (le_refl _) l1 hWl
  obtain ⟨g1, g2⟩ := Writer.Write_flushed w world p hp hfl a2
  have herr : (w.Write world p).err = some e := by
    cases hfs : w.w.Flush with
    | none =>
      obtain ⟨_, hw⟩ := g1 hfs
      have hce2 : w.callEvents world p = levs :=
        Writer.callEvents_of_trace w world p _ (by rw [hw, l1])
      rw [hce2] at hce
      rw [← hce] at hF
      have := flush_mem_flushCount levs _ hF
      omega
    | some f =>
      obtain ⟨he, hw⟩ := g2 f hfs
      have hce2 : w.callEvents world p =
          levs ++ [Event.flush (f (w.loop p.length world p 0).world.sink).1] :=
        Writer.callEvents_of_trace w world p _ (by rw [hw, l1, List.append_assoc])
      rw [hce2] at hce
      rw [← hce] at hF
      rcases List.mem_append.mp hF with h | h
      · have := flush_mem_flushCount levs _ h
        omega
      · simp only [List.mem_singleton, Event.flush.injEq] at h
        rw [he, ← h]
  refine ⟨by rw [t0, a1]; simp, herr, by rw [t1, a3], by rw [t1, a3]; rfl, ?_⟩
  intro w' e1 e2 e3 e4 e5
  obtain ⟨_, s1⟩ := Writer.Write_of_loop w' world p hp
  obtain ⟨S', fl', pfx', sfx', head', written'⟩ := w'
  obtain ⟨S, fl, pfx, sfx, head, written⟩ := w
  simp only at e1 e2 e3 e4 e5
  subst e2 e3 e4 e5
  obtain ⟨_, _, _, c4, c5⟩ :=
    Writer.loop_congr p.length S S' fl fl' pfx' sfx' head' written' world p 0 e1
  rw [s1, t1]
  exact ⟨c4, c5⟩

/-- C15 over a capped sink whose flush fails (`recovering (some "flush")` with limit 100) at
`Write("a\nb")`: the three bytes are consumed and the error is the one of the flush. -/
theorem C15_flush_error_overrides_witness :
    ((New (recovering (some "flush")) [62] [60]).Write ⟨some 100, []⟩ [97, 10, 98]).n =
      (([97, 10, 98] : Bytes).length : Int) ∧
    ((New (recovering (some "flush")) [62] [60]).Write ⟨some 100, []⟩ [97, 10, 98]).err =
      some "flush" :=
  have h := C15_flush_error_overrides (New (recovering (some "flush")) [62] [60])
    ⟨some 100, []⟩ [97, 10, 98] "flush" rfl (by decide) (by decide) (by decide)
  ⟨h.1, h.2.1⟩

/-- C6 amended (flush after successful writes): one `Write(p)` makes no sink call for an
empty `p`; for a non-empty `p` of which no sink write returned an error it invokes the sink's
flush exactly once when the sink has one, as its last sink call, and returns whatever that
flush returned, error or `nil` (a sink without flush is never flushed and `Write` returns
`nil`); and when a sink write returned an error it invokes no flush and returns that
error. -/
theorem C6_flush_after_writes (w : Writer σ ε) (world : World σ ε) (p : Bytes)
    (hfl : w.flush = getFlush w.w) :
    (w.Write world p).world.trace = world.trace ++ w.callEvents world p ∧
    (p = [] → w.callEvents world p = []) ∧
    (p ≠ [] → writeError (w.callEvents world p) = none →
      flushCount (w.callEvents world p) = (if w.w.Flush.isSome = true then 1 else 0) ∧
      (w.w.Flush = none → (w.Write world p).err = none) ∧
      (∀ f : σ → Option ε × σ, w.w.Flush = some f →
        (w.callEvents world p).getLast? = some (Event.flush (w.Write world p).err))) ∧
    (∀ e : ε, writeError (w.callEvents world p) = some e →
      flushCount (w.callEvents world p) = 0 ∧ (w.Write world p).err = some e) := by
  obtain ⟨h1, h2, h3, h4⟩ := Writer.Write_events w world p hfl
  refine ⟨h1, h2, fun hp hnone => ⟨h3 hp hnone, ?_⟩, h4⟩
  obtain ⟨levs, l1, _, l3⟩ := Writer.loop_trace p.length w world p 0
  obtain ⟨_, _, fevs, u1, u2, _⟩ := Writer.Write_trace w world p hp hfl
  have hce : w.callEvents world p = levs ++ fevs :=
    Writer.callEvents_of_trace w world p _ (by rw [u1, l1, List.append_assoc])
  have hok : (w.loop p.length world p 0).err = none := by
    rw [hce, writeError_append, writeError_of_chunks_nil fevs u2, l3] at hnone
    cases hl : (w.loop p.length world p 0).err with
    | none => rfl
    | some e => rw [hl] at hnone; simp at hnone
  obtain ⟨g1, g2⟩ := Writer.Write_flushed w world p hp hfl hok
  refine ⟨fun hn => (g1 hn).1, fun f hf => ?_⟩
  obtain ⟨he, hw⟩ := g2 f hf
  have hce2 : w.callEvents world p =
      levs ++ [Event.flush (f (w.loop p.length world p 0).world.sink).1] :=
    Writer.callEvents_of_trace w world p _ (by rw [hw, l1, List.append_assoc])
  rw [hce2, he]
  simp

/-- C6 amended over `flushFails` at `Write("a")`: one flush, made last, and `Write` returns
its error. -/
theorem C6_flush_after_writes_witness :
    (New flushFails [] []).flush = getFlush (New flushFails [] []).w ∧
    flushCount ((New flushFails [] []).callEvents ⟨(), []⟩ [97]) = 1 ∧
    ((New flushFails [] []).callEvents ⟨(), []⟩ [97]).getLast? =
      some (Event.flush ((New flushFails [] []).Write ⟨(), []⟩ [97]).err) ∧
    ((New flushFails [] []).Write ⟨(), []⟩ [97]).err = some "flush" :=
  have h := (C6_flush_after_writes (New flushFails [] []) ⟨(), []⟩ [97] rfl).2.2.1
    (by decide) (by decide)
  ⟨rfl, by simpa [New, flushFails] using h.1, h.2.2 (fun s => (some "flush", s)) rfl,
    by decide⟩

end Decowriter
